import Mathlib

/-!
# chdl-stl : `test-counter.cpp`

A shallow embedding of the Counter test bench: the LFSR stimulus generator
`Lfsr`, the harness loop `test_Counter` and `main`, over a small model of the
CHDL simulation kernel (registers, combinational nodes, `advance`, `reset`,
`optimize`, egress) that the test bench is written against.
-/

namespace chdl

/-! ## The simulation kernel -/

/-- Modelled from the spec: a Signal of the CHDL kernel (the library behind
`chdl/chdl.h` is not among the sources).  A signal is a literal, the output of register `i` of the register
store, bit `bit` of the count output of Counter instance `k`, the negation
`!a`, or the two-input `Xor`; after `optimize()` a signal may also be entry `i`
of the table of shared combinational nodes of the graph. -/
inductive node where
  | lit (v : Bool) : node
  | reg (i : Nat) : node
  | ctr (k : Nat) (bit : Nat) : node
  | wire (i : Nat) : node
  | inv (a : node) : node
  | xor (a b : node) : node
  deriving DecidableEq

/-- Modelled from the spec: a Register, `Reg(next, init)`: a next-value expression
and the initial value used at construction and after `reset()`. -/
structure Register where
  next : node
  init : Bool
  deriving DecidableEq

/-- Modelled from the spec: an instance of the external Counter component
(`counter.h` is not among the sources): its single-bit input and the width of
its count output. -/
structure CounterInst where
  input : node
  width : Nat
  deriving DecidableEq

/-- Modelled from the spec: the Circuit Graph owned by the kernel: the register
store, the Counter instances, the tap points and the egress bindings, each in
order of creation, and the table of shared combinational nodes in evaluation
order, which is empty until `optimize()` fills it. -/
structure Circuit where
  regs : List Register
  counters : List CounterInst
  taps : List (List node)
  egress : List (List node)
  wires : List node
  deriving DecidableEq

/-- Modelled from the spec: the current values held by the kernel: one boolean per
register and one count per Counter instance. -/
structure State where
  regs : List Bool
  counts : List Nat
  deriving DecidableEq

/-- The circuit before any component is wired. -/
def Circuit.empty : Circuit :=
  { regs := [], counters := [], taps := [], egress := [], wires := [] }

/-- Modelled from the spec: evaluation of a combinational expression from the
current values; it has no side effect.  The list `w` holds the values of the
shared nodes evaluated so far. -/
def evalW (st : State) (w : List Bool) : node → Bool
  | node.lit v => v
  | node.reg i => st.regs.getD i false
  | node.ctr k bit => (st.counts.getD k 0).testBit bit
  | node.wire i => w.getD i false
  | node.inv a => !(evalW st w a)
  | node.xor a b => Bool.xor (evalW st w a) (evalW st w b)

/-- Evaluation of a combinational expression of a graph without shared nodes. -/
def eval (st : State) : node → Bool :=
  evalW st []

/-- Modelled from the spec: the values of the shared combinational nodes, each
recomputed from the current values in the evaluation order of the table; `acc`
holds the values of the nodes already evaluated. -/
def wireVals (st : State) : List node → List Bool → List Bool
  | [], acc => acc
  | g :: rest, acc => wireVals st rest (acc ++ [evalW st acc g])

/-- Modelled from the spec: the Counter contract: the count goes up by one on each
tick on which the input bit is asserted, within the width of the output. -/
def CounterInst.tick (st : State) (w : List Bool) (ci : CounterInst) (count : Nat) : Nat :=
  if evalW st w ci.input then (count + 1) % 2 ^ ci.width else count

/-- Modelled from the spec: `advance()`, one clock tick: the shared combinational
nodes are recomputed from the pre-tick values, every next-value expression is
evaluated on the pre-tick values, and all registers are committed together. -/
def advance (c : Circuit) (st : State) : State :=
  { regs := c.regs.map (fun r => evalW st (wireVals st c.wires []) r.next),
    counts := List.zipWith (CounterInst.tick st (wireVals st c.wires [])) c.counters st.counts }

/-- Modelled from the spec: the state of a freshly built circuit: every register
holds its initial value and every Counter output is zero. -/
def power_on (c : Circuit) : State :=
  { regs := c.regs.map (fun r => r.init),
    counts := c.counters.map (fun _ => 0) }

/-- Modelled from the spec: `reset()`: every register is restored to its declared
initial value and every count is cleared. -/
def reset (c : Circuit) (st : State) : State :=
  { regs := c.regs.map (fun r => r.init),
    counts := st.counts.map (fun _ => 0) }

/-- The state of a kernel after `k` calls of its `advance()`. -/
def after {σ : Type} (adv : σ → σ) (s0 : σ) : Nat → σ
  | 0 => s0
  | k + 1 => adv (after adv s0 k)

/-- Modelled from the spec: `XorN`, the XOR reduction over a vector of signals. -/
def XorN : List node → node
  | [] => node.lit false
  | [a] => a
  | a :: b :: rest => node.xor a (XorN (b :: rest))

/-- The host-side unsigned integer of a vector of bit values, bit 0 least
significant. -/
def toUInt : List Bool → Nat
  | [] => 0
  | b :: bs => b.toNat + 2 * toUInt bs

/-- The values of a vector of signals in a state, given the values of the shared
nodes. -/
def evalVec (st : State) (w : List Bool) (v : List node) : List Bool :=
  v.map (evalW st w)

/-! ## `Lfsr` -/

/-- The function `Lfsr` of `test-counter.cpp`, wiring its registers into the circuit `c`.
`sr i` is the output of the register allocated for bit `i`; bits 1..15 shift,
bit 0 takes the negated XOR of the taps `sr[0]` and `sr[14]`; the XOR itself is
returned. -/
def Lfsr (seed : Nat) (c : Circuit) : node × Circuit :=
  let base := c.regs.length
  let sr : Nat → node := fun i => node.reg (base + i)
  let shift : List Register :=
    (List.range 15).map
      (fun j => { next := sr j, init := decide ((seed >>> (j + 1)) &&& 1 = 1) })
  let taps : List node := [sr 0, sr 14]
  let next := XorN taps
  let r0 : Register := { next := node.inv next, init := decide (seed &&& 1 = 1) }
  (next,
   { c with
     regs := c.regs ++ r0 :: shift,
     taps := c.taps ++ [(List.range 16).map sr, taps, [next]] })

/-- The circuit of one `Lfsr(seed)` on its own. -/
def lfsrCircuit (seed : Nat) : Circuit := (Lfsr seed Circuit.empty).2

/-- The node returned by `Lfsr(seed)` on its own. -/
def lfsrOut (seed : Nat) : node := (Lfsr seed Circuit.empty).1

/-- The shift register of `Lfsr(seed)` after `t` advances. -/
def lfsrState (seed t : Nat) : State :=
  after (advance (lfsrCircuit seed)) (power_on (lfsrCircuit seed)) t

/-- The output bit of `Lfsr(seed)` at cycle `t`. -/
def lfsrOutput (seed t : Nat) : Bool :=
  eval (lfsrState seed t) (lfsrOut seed)

/-- The XOR of the two tap bits, bit 0 and bit 14, of the integer value of the
shift register. -/
def lfsrTap (s : Nat) : Nat :=
  s % 2 ^^^ (s / 16384) % 2

/-- One tick of the shift register on its integer value: the bits move up by one
place, bit 15 falls off, and bit 0 becomes the complement of the tap XOR. -/
def lfsrStep (s : Nat) : Nat :=
  (2 * s) % 65536 + (1 - lfsrTap s)

/-- The integer value of the shift register after `n` ticks from the value `s`,
each intermediate value being computed before the next tick. -/
def lfsrIter : Nat → Nat → Nat
  | 0, s => s
  | n + 1, s =>
    match lfsrStep s with
    | 0 => lfsrIter n 0
    | k + 1 => lfsrIter n (k + 1)

/-- One tick of the shift register seen on its low 15 bits, bits 0..14: bit 15
feeds nothing, so these bits evolve on their own. -/
def low15Step (s : Nat) : Nat :=
  lfsrStep s % 32768

/-! ## `optimize`, `Counter`, egress -/

/-- Store the combinational node `g`, whose inputs are already in shared form,
in the table: a node structurally identical to one of the table is that entry,
any other node goes to the end of the table. -/
def share (g : node) (tbl : List node) : node × List node :=
  if g ∈ tbl then (node.wire (tbl.indexOf g), tbl) else (node.wire tbl.length, tbl ++ [g])

/-- Put an expression in shared form: its combinational sub-expressions go to the
table, inputs before the nodes that read them, structurally identical ones
once; the result is the signal that stands for the expression. -/
def intern : node → List node → node × List node
  | node.lit v, tbl => (node.lit v, tbl)
  | node.reg i, tbl => (node.reg i, tbl)
  | node.ctr k bit, tbl => (node.ctr k bit, tbl)
  | node.wire i, tbl => (node.wire i, tbl)
  | node.inv a, tbl => share (node.inv (intern a tbl).1) (intern a tbl).2
  | node.xor a b, tbl =>
    share (node.xor (intern a tbl).1 (intern b (intern a tbl).2).1) (intern b (intern a tbl).2).2

/-- Put the expression `get x` of every `x` of a list in shared form, from left to
right over one table. -/
def internMap {α : Type} (get : α → node) (set : α → node → α) :
    List α → List node → List α × List node
  | [], tbl => ([], tbl)
  | x :: xs, tbl =>
    (set x (intern (get x) tbl).1 :: (internMap get set xs (intern (get x) tbl).2).1,
     (internMap get set xs (intern (get x) tbl).2).2)

/-- Put every signal of a list of vectors in shared form over one table. -/
def internVecs : List (List node) → List node → List (List node) × List node
  | [], tbl => ([], tbl)
  | v :: vs, tbl =>
    ((internMap id (fun _ n => n) v tbl).1 ::
       (internVecs vs (internMap id (fun _ n => n) v tbl).2).1,
     (internVecs vs (internMap id (fun _ n => n) v tbl).2).2)

/-- Modelled from the spec: `optimize()` (the pass is part of the CHDL kernel, which
is not among the sources): it finalizes the graph, deduplicating structurally
identical sub-expressions and fixing a topological evaluation order: every
combinational node of the graph is stored once in the table `wires`, after the
nodes it reads, and every next-value expression, Counter input, tap and egress
point refers to the table. -/
def optimize (c : Circuit) : Circuit :=
  let r1 := internMap (fun r => r.next) (fun r n => { r with next := n }) c.regs []
  let r2 := internMap (fun ci => ci.input) (fun ci n => { ci with input := n }) c.counters r1.2
  let r3 := internVecs c.taps r2.2
  let r4 := internVecs c.egress r3.2
  { regs := r1.1, counters := r2.1, taps := r3.1, egress := r4.1, wires := r4.2 }

/-- Every reference of a signal to the table of shared nodes is to one of its
first `n` entries. -/
def Scoped (n : Nat) : node → Prop
  | node.lit _ => True
  | node.reg _ => True
  | node.ctr _ _ => True
  | node.wire i => i < n
  | node.inv a => Scoped n a
  | node.xor a b => Scoped n a ∧ Scoped n b

/-- A table of shared nodes in which every entry refers to entries of the table
only and holds, in every state, the value of its node on the values of the
table. -/
def TableOk (tbl : List node) : Prop :=
  (∀ g ∈ tbl, Scoped tbl.length g) ∧
  ∀ (st : State) (j : Nat), j < tbl.length →
    (wireVals st tbl []).getD j false =
      evalW st (wireVals st tbl []) (tbl.getD j (node.lit false))

/-- A graph as wired, before `optimize()`: no signal refers to the table of shared
nodes. -/
def Raw (c : Circuit) : Prop :=
  (∀ r ∈ c.regs, Scoped 0 r.next) ∧ (∀ ci ∈ c.counters, Scoped 0 ci.input) ∧
  (∀ v ∈ c.taps, ∀ e ∈ v, Scoped 0 e) ∧ (∀ v ∈ c.egress, ∀ e ∈ v, Scoped 0 e)

/-- Modelled from the spec: `Counter(name, x)` (`counter.h` is not among the
sources): a new instance of the Counter component on input `x`; the result is its count output,
`CTRSIZE` bits, bit 0 least significant. -/
def Counter (CTRSIZE : Nat) (_name : String) (x : node) (c : Circuit) :
    List node × Circuit :=
  let k := c.counters.length
  ((List.range CTRSIZE).map (fun bit => node.ctr k bit),
   { c with counters := c.counters ++ [{ input := x, width := CTRSIZE }] })

/-- Modelled from the spec: `Egress(host_var, n)`: a binding of a host variable to
one signal. -/
def Egress (n : node) (c : Circuit) : Circuit :=
  { c with egress := c.egress ++ [[n]] }

/-- Modelled from the spec: `EgressInt(host_var, v)`: a binding of a host integer to
a vector of signals. -/
def EgressInt (v : List node) (c : Circuit) : Circuit :=
  { c with egress := c.egress ++ [v] }

/-- Modelled from the spec: the values written to the bound host variables, one
unsigned integer per binding, from the current values of the kernel. -/
def hostVars (c : Circuit) (st : State) : List Nat :=
  c.egress.map (fun v => toUInt (evalVec st (wireVals st c.wires []) v))

/-- The values seen at the tap points in a state. -/
def tapVals (c : Circuit) (st : State) : List (List Bool) :=
  c.taps.map (evalVec st (wireVals st c.wires []))

/-- The values seen at the egress points in a state. -/
def egressVals (c : Circuit) (st : State) : List (List Bool) :=
  c.egress.map (evalVec st (wireVals st c.wires []))

/-! ## `test_Counter` and `main` -/

/-- The four host variables bound by `test_Counter`, as the kernel writes them. -/
structure Egressed where
  xval : Bool
  yval : Bool
  cxval : Nat
  cyval : Nat
  deriving DecidableEq

/-- The locals of `test_Counter` during its loop, with the kernel state and the
number of `advance()` calls made so far.  `cxval` and `cyval` have no initial
value and are read only right after an `advance()` has written them, so the
loop reads them off the egress. -/
structure Locals (σ : Type) where
  sim : σ
  advances : Nat
  xval : Bool
  yval : Bool
  ext_xcount : Nat
  ext_ycount : Nat

/-- The loop of `test_Counter` with `cycles` iterations left, over a kernel given
by its `advance()` and by what it writes to the host variables.  The result is
the value returned (false from inside the loop, true after it) and the locals
at that point.  The two reference counters are `unsigned long` and go up by at
most one per iteration, so they are natural numbers here. -/
def test_Counter_loop {σ : Type} (adv : σ → σ) (egress : σ → Egressed) :
    Nat → Locals σ → Bool × Locals σ
  | 0, l => (true, l)
  | cycles + 1, l =>
    let ext_xcount := if l.xval then l.ext_xcount + 1 else l.ext_xcount
    let ext_ycount := if l.yval then l.ext_ycount + 1 else l.ext_ycount
    let sim := adv l.sim
    let e := egress sim
    let l1 : Locals σ :=
      { sim := sim, advances := l.advances + 1, xval := e.xval, yval := e.yval,
        ext_xcount := ext_xcount, ext_ycount := ext_ycount }
    if ext_ycount ≠ e.cyval then (false, l1)
    else if ext_xcount ≠ e.cxval then (false, l1)
    else test_Counter_loop adv egress cycles l1

/-- The locals of `test_Counter` when its loop starts. -/
def Locals.start {σ : Type} (s0 : σ) : Locals σ :=
  { sim := s0, advances := 0, xval := false, yval := false,
    ext_xcount := 0, ext_ycount := 0 }

/-- The body of `test_Counter` from its loop on, over any kernel. -/
def test_Counter_on {σ : Type} (adv : σ → σ) (egress : σ → Egressed) (s0 : σ) :
    Bool × Locals σ :=
  test_Counter_loop adv egress 10000 (Locals.start s0)

/-- The function `main` over any kernel: the exit code, and the kernel state at exit. -/
def main_on {σ : Type} (adv : σ → σ) (egress : σ → Egressed) (rst : σ → σ) (s0 : σ) :
    Nat × σ :=
  let r := test_Counter_on adv egress s0
  if !r.1 then (1, r.2.sim) else (0, rst r.2.sim)

/-- The wiring done by `test_Counter` before `optimize()`, for two seeds. -/
def test_Counter_wiring (CTRSIZE seedx seedy : Nat) : Circuit :=
  let (x, c1) := Lfsr seedx Circuit.empty
  let (y, c2) := Lfsr seedy c1
  let (cx, c3) := Counter CTRSIZE "x" x c2
  let (cy, c4) := Counter CTRSIZE "y" y c3
  EgressInt cy (EgressInt cx (Egress y (Egress x c4)))

/-- The circuit `test_Counter` simulates: the wiring followed by `optimize()`. -/
def test_Counter_circuit (CTRSIZE seedx seedy : Nat) : Circuit :=
  optimize (test_Counter_wiring CTRSIZE seedx seedy)

/-- What the kernel writes to `xval`, `yval`, `cxval`, `cyval` of `test_Counter`,
bound in this order. -/
def benchEgress (c : Circuit) (st : State) : Egressed :=
  let hv := hostVars c st
  { xval := decide (hv.getD 0 0 ≠ 0), yval := decide (hv.getD 1 0 ≠ 0),
    cxval := hv.getD 2 0, cyval := hv.getD 3 0 }

/-- The loop of `test_Counter` for two seeds and a number of cycles. -/
def test_Counter_run (CTRSIZE seedx seedy cycles : Nat) : Bool × Locals State :=
  let c := test_Counter_circuit CTRSIZE seedx seedy
  test_Counter_loop (advance c) (benchEgress c) cycles (Locals.start (power_on c))

/-- The function `test_Counter`: seeds `0x5eed` and `0x1234`, 10000 cycles. -/
def test_Counter (CTRSIZE : Nat) : Bool :=
  (test_Counter_run CTRSIZE 0x5eed 0x1234 10000).1

/-- The function `main`: exit code 1 when `test_Counter` fails, else `reset()` and 0. -/
def main (CTRSIZE : Nat) : Nat :=
  let c := test_Counter_circuit CTRSIZE 0x5eed 0x1234
  (main_on (advance c) (benchEgress c) (reset c) (power_on c)).1

/-! ## The reference counters -/

/-- The value of `xval` the host holds once `k` advances are done: false at
first, then what the last `advance()` wrote. -/
def seenX {σ : Type} (adv : σ → σ) (egress : σ → Egressed) (s0 : σ) : Nat → Bool
  | 0 => false
  | k + 1 => (egress (after adv s0 (k + 1))).xval

/-- The value of `yval` the host holds once `k` advances are done. -/
def seenY {σ : Type} (adv : σ → σ) (egress : σ → Egressed) (s0 : σ) : Nat → Bool
  | 0 => false
  | k + 1 => (egress (after adv s0 (k + 1))).yval

/-- The reference counter of lane x when it is compared after the `k`-th advance:
the number of iterations among the first `k` that began with `xval` asserted. -/
def refX {σ : Type} (adv : σ → σ) (egress : σ → Egressed) (s0 : σ) : Nat → Nat
  | 0 => 0
  | k + 1 => refX adv egress s0 k + (seenX adv egress s0 k).toNat

/-- The reference counter of lane y when it is compared after the `k`-th advance. -/
def refY {σ : Type} (adv : σ → σ) (egress : σ → Egressed) (s0 : σ) : Nat → Nat
  | 0 => 0
  | k + 1 => refY adv egress s0 k + (seenY adv egress s0 k).toNat

/-- Both lanes agree after the `k`-th advance: each reference counter equals the
egressed Counter value. -/
def lanesAgree {σ : Type} (adv : σ → σ) (egress : σ → Egressed) (s0 : σ) (k : Nat) : Prop :=
  refY adv egress s0 k = (egress (after adv s0 k)).cyval ∧
  refX adv egress s0 k = (egress (after adv s0 k)).cxval

/-- The locals of `test_Counter` at the head of its loop once `k` advances are
done and every comparison so far has passed. -/
def localsAt {σ : Type} (adv : σ → σ) (egress : σ → Egressed) (s0 : σ) (k : Nat) : Locals σ :=
  { sim := after adv s0 k, advances := k,
    xval := seenX adv egress s0 k, yval := seenY adv egress s0 k,
    ext_xcount := refX adv egress s0 k, ext_ycount := refY adv egress s0 k }

instance {σ : Type} (adv : σ → σ) (egress : σ → Egressed) (s0 : σ) (k : Nat) :
    Decidable (lanesAgree adv egress s0 k) := by
  unfold lanesAgree; infer_instance

/-! ## The bench of `test_Counter`, cycle by cycle -/

/-- The kernel state of the bench of `test_Counter` after `t` advances. -/
def benchState (CTRSIZE seedx seedy t : Nat) : State :=
  after (advance (test_Counter_circuit CTRSIZE seedx seedy))
    (power_on (test_Counter_circuit CTRSIZE seedx seedy)) t

/-- The host variables of the bench as written by the `t`-th advance. -/
def benchHost (CTRSIZE seedx seedy t : Nat) : Egressed :=
  benchEgress (test_Counter_circuit CTRSIZE seedx seedy) (benchState CTRSIZE seedx seedy t)

/-- The reference counter `ext_xcount` of the bench when compared after the
`k`-th advance. -/
def benchRefX (CTRSIZE seedx seedy k : Nat) : Nat :=
  refX (advance (test_Counter_circuit CTRSIZE seedx seedy))
    (benchEgress (test_Counter_circuit CTRSIZE seedx seedy))
    (power_on (test_Counter_circuit CTRSIZE seedx seedy)) k

/-- The reference counter `ext_ycount` of the bench when compared after the
`k`-th advance. -/
def benchRefY (CTRSIZE seedx seedy k : Nat) : Nat :=
  refY (advance (test_Counter_circuit CTRSIZE seedx seedy))
    (benchEgress (test_Counter_circuit CTRSIZE seedx seedy))
    (power_on (test_Counter_circuit CTRSIZE seedx seedy)) k

/-! ## Bit vectors as integers -/

theorem toUInt_cons (b : Bool) (bs : List Bool) :
    toUInt (b :: bs) = b.toNat + 2 * toUInt bs := rfl

theorem toUInt_replicate_false (n : Nat) : toUInt (List.replicate n false) = 0 := by
  induction n with
  | zero => rfl
  | succ n ih => simp [List.replicate_succ, toUInt, ih]

theorem range_succ_map {α : Type} (k : Nat) (f : Nat → α) :
    (List.range (k + 1)).map f = f 0 :: (List.range k).map (fun i => f (i + 1)) := by
  rw [List.range_succ_eq_map]
  simp [List.map_map, Function.comp_def]

/-- The low `k` bits of the integer of a bit list are the integer of its first
`k` entries, missing entries reading as zero. -/
theorem toUInt_mod (k : Nat) (l : List Bool) :
    toUInt l % 2 ^ k = toUInt ((List.range k).map (fun i => l.getD i false)) := by
  induction k generalizing l with
  | zero => simp [toUInt, Nat.mod_one]
  | succ k ih =>
    rw [range_succ_map]
    cases l with
    | nil =>
      simp [toUInt, toUInt_replicate_false]
    | cons b bs =>
      have h := ih bs
      simp only [toUInt, List.getD_cons_zero, List.getD_cons_succ]
      rw [← h, pow_succ]
      have hb : b.toNat < 2 := Bool.toNat_lt b
      have hp : 0 < 2 ^ k := Nat.pow_pos (by decide)
      generalize toUInt bs = x
      generalize 2 ^ k = m at hp
      have h1 : (b.toNat + 2 * x) % (m * 2) = b.toNat + 2 * (x % m) := by
        have e1 : (b.toNat + 2 * x) / 2 = x := by omega
        have e2 : (b.toNat + 2 * x) % 2 = b.toNat := by omega
        rw [Nat.mul_comm m 2, Nat.mod_mul, e1, e2]
      exact h1

theorem toUInt_testBit (l : List Bool) (i : Nat) :
    (toUInt l).testBit i = l.getD i false := by
  induction l generalizing i with
  | nil => simp [toUInt]
  | cons b bs ih =>
    cases i with
    | zero =>
      cases b <;> simp [toUInt, Nat.testBit, Nat.add_mod]
    | succ i =>
      have h := ih i
      simp only [toUInt, List.getD_cons_succ]
      rw [← h, Nat.testBit_succ]
      congr 1
      have hb : b.toNat < 2 := Bool.toNat_lt b
      omega

theorem range15 : List.range 15 = [0, 1, 2, 3, 4, 5, 6, 7, 8, 9, 10, 11, 12, 13, 14] := by
  decide

theorem lfsr_regs_advance (seed : Nat) (st : State) :
    (advance (lfsrCircuit seed) st).regs =
      (!(Bool.xor (st.regs.getD 0 false) (st.regs.getD 14 false))) ::
        (List.range 15).map (fun i => st.regs.getD i false) := by
  simp [advance, lfsrCircuit, Lfsr, Circuit.empty, XorN, eval, evalW, wireVals, Function.comp_def]


theorem toUInt_testBit_range (k n : Nat) :
    toUInt ((List.range k).map (fun i => n.testBit i)) = n % 2 ^ k := by
  induction k generalizing n with
  | zero => simp [toUInt, Nat.mod_one]
  | succ k ih =>
    rw [range_succ_map]
    have h := ih (n / 2)
    simp only [toUInt, Nat.testBit_succ]
    rw [h, pow_succ, Nat.mul_comm (2 ^ k) 2, Nat.mod_mul]
    congr 1
    simp only [Nat.testBit_zero]
    rcases Nat.mod_two_eq_zero_or_one n with h0 | h1
    · simp [h0]
    · simp [h1]

theorem seed_bit (seed i : Nat) : decide ((seed >>> i) &&& 1 = 1) = seed.testBit i := by
  simp only [Nat.testBit, Nat.and_comm (seed >>> i) 1]
  rcases Nat.mod_two_eq_zero_or_one (seed >>> i) with h | h
  · simp [Nat.one_and_eq_mod_two, h]
  · simp [Nat.one_and_eq_mod_two, h]

theorem lfsr_regs_power_on (seed : Nat) :
    (power_on (lfsrCircuit seed)).regs = (List.range 16).map (fun i => seed.testBit i) := by
  rw [range_succ_map]
  have h := seed_bit seed 0
  simp only [Nat.shiftRight_zero] at h
  simp [power_on, lfsrCircuit, Lfsr, Circuit.empty, Function.comp_def, seed_bit, h]

theorem lfsrCircuit_mod (seed : Nat) : lfsrCircuit (seed % 2 ^ 16) = lfsrCircuit seed := by
  have h0 := seed_bit seed 0
  have h0m := seed_bit (seed % 2 ^ 16) 0
  simp only [Nat.shiftRight_zero] at h0 h0m
  simp only [lfsrCircuit, Lfsr, Circuit.empty, seed_bit, h0, h0m]
  congr 2
  simp only [List.cons.injEq, Register.mk.injEq, true_and, List.map_inj_left, List.mem_range]
  refine ⟨?_, fun j hj => ?_⟩
  · rw [Nat.testBit_mod_two_pow]
    simp
  · rw [Nat.testBit_mod_two_pow]
    have hj16 : j + 1 < 16 := by omega
    simp [hj16]

theorem lfsrOut_eq (seed : Nat) : lfsrOut seed = node.xor (node.reg 0) (node.reg 14) := by
  simp [lfsrOut, Lfsr, Circuit.empty, XorN]


/-- Bits 0 and 14 of an integer and the XOR of its two tap bits. -/
theorem tap_xor_toNat (s : Nat) :
    (Bool.xor (s.testBit 0) (s.testBit 14)).toNat = lfsrTap s := by
  unfold lfsrTap
  have e14 : s.testBit 14 = decide (s / 16384 % 2 = 1) := by
    rw [Nat.testBit_to_div_mod]
  have e0 : s.testBit 0 = decide (s % 2 = 1) := by
    rw [Nat.testBit_to_div_mod]; simp
  rw [e0, e14]
  rcases Nat.mod_two_eq_zero_or_one s with h0 | h0 <;>
    rcases Nat.mod_two_eq_zero_or_one (s / 16384) with h1 | h1 <;>
    simp [h0, h1]

theorem toUInt_lfsr_advance (seed : Nat) (st : State) :
    toUInt (advance (lfsrCircuit seed) st).regs =
      (2 * toUInt st.regs) % 2 ^ 16 +
        (1 - (Bool.xor (st.regs.getD 0 false) (st.regs.getD 14 false)).toNat) := by
  rw [lfsr_regs_advance, toUInt_cons, ← toUInt_mod 15]
  have hx : (Bool.xor (st.regs.getD 0 false) (st.regs.getD 14 false)).toNat < 2 :=
    Bool.toNat_lt _
  generalize Bool.xor (st.regs.getD 0 false) (st.regs.getD 14 false) = x at hx ⊢
  cases x <;> simp <;> omega

theorem toUInt_lfsr_step (seed : Nat) (st : State) :
    toUInt (advance (lfsrCircuit seed) st).regs = lfsrStep (toUInt st.regs) := by
  rw [toUInt_lfsr_advance, lfsrStep, ← toUInt_testBit, ← toUInt_testBit, tap_xor_toNat]
  norm_num

/-! ## The harness loop -/

theorem start_eq_localsAt {σ : Type} (adv : σ → σ) (egress : σ → Egressed) (s0 : σ) : Locals.start s0 = localsAt adv egress s0 0 := rfl

theorem refX_succ {σ : Type} (adv : σ → σ) (egress : σ → Egressed) (s0 : σ) (k : Nat) :
    (if seenX adv egress s0 k then refX adv egress s0 k + 1 else refX adv egress s0 k) =
      refX adv egress s0 (k + 1) := by
  cases h : seenX adv egress s0 k <;> simp [refX, h]

theorem refY_succ {σ : Type} (adv : σ → σ) (egress : σ → Egressed) (s0 : σ) (k : Nat) :
    (if seenY adv egress s0 k then refY adv egress s0 k + 1 else refY adv egress s0 k) =
      refY adv egress s0 (k + 1) := by
  cases h : seenY adv egress s0 k <;> simp [refY, h]

/-- One iteration of the loop: it stops with false when the lanes disagree after
the advance, and goes on otherwise. -/
theorem loop_succ {σ : Type} (adv : σ → σ) (egress : σ → Egressed) (s0 : σ)
    (cycles j : Nat) :
    test_Counter_loop adv egress (cycles + 1) (localsAt adv egress s0 j) =
      if lanesAgree adv egress s0 (j + 1) then
        test_Counter_loop adv egress cycles (localsAt adv egress s0 (j + 1))
      else (false, localsAt adv egress s0 (j + 1)) := by
  have hx := refX_succ adv egress s0 j
  have hy := refY_succ adv egress s0 j
  have hl : localsAt adv egress s0 (j + 1) =
      { sim := adv (after adv s0 j), advances := j + 1,
        xval := (egress (adv (after adv s0 j))).xval,
        yval := (egress (adv (after adv s0 j))).yval,
        ext_xcount := refX adv egress s0 (j + 1),
        ext_ycount := refY adv egress s0 (j + 1) } := rfl
  have ha : after adv s0 (j + 1) = adv (after adv s0 j) := rfl
  rw [test_Counter_loop, hl]
  simp only [localsAt, lanesAgree, ha]
  rw [hx, hy]
  by_cases h1 : refY adv egress s0 (j + 1) = (egress (adv (after adv s0 j))).cyval
  · by_cases h2 : refX adv egress s0 (j + 1) = (egress (adv (after adv s0 j))).cxval
    · simp [h1, h2]
    · simp [h1, h2]
  · simp [h1]

/-- The loop run from the state reached after `j` advances: either every one of
the next `cycles` comparisons passes and it returns true after `cycles` more
advances, or it returns false right after the advance of the first comparison
that fails. -/
theorem loop_spec {σ : Type} (adv : σ → σ) (egress : σ → Egressed) (s0 : σ)
    (cycles j : Nat) :
    let r := test_Counter_loop adv egress cycles (localsAt adv egress s0 j)
    (r.1 = true ∧ r.2 = localsAt adv egress s0 (j + cycles) ∧
        ∀ k, j < k → k ≤ j + cycles → lanesAgree adv egress s0 k) ∨
    (r.1 = false ∧ ∃ m, j < m ∧ m ≤ j + cycles ∧ r.2 = localsAt adv egress s0 m ∧
        ¬ lanesAgree adv egress s0 m ∧ ∀ k, j < k → k < m → lanesAgree adv egress s0 k) := by
  induction cycles generalizing j with
  | zero =>
    left
    refine ⟨rfl, rfl, ?_⟩
    intro k h1 h2
    omega
  | succ cycles ih =>
    intro r
    have hr : r = test_Counter_loop adv egress (cycles + 1) (localsAt adv egress s0 j) := rfl
    rw [loop_succ] at hr
    by_cases hag : lanesAgree adv egress s0 (j + 1)
    · rw [if_pos hag] at hr
      rcases ih (j + 1) with ⟨h1, h2, h3⟩ | ⟨h1, m, hm1, hm2, hm3, hm4, hm5⟩
      · left
        rw [hr]
        refine ⟨h1, ?_, ?_⟩
        · rw [h2]; congr 1; omega
        · intro k hk1 hk2
          by_cases hk : k = j + 1
          · rw [hk]; exact hag
          · exact h3 k (by omega) (by omega)
      · right
        rw [hr]
        refine ⟨h1, m, by omega, by omega, hm3, hm4, ?_⟩
        intro k hk1 hk2
        by_cases hk : k = j + 1
        · rw [hk]; exact hag
        · exact hm5 k (by omega) hk2
    · rw [if_neg hag] at hr
      right
      rw [hr]
      refine ⟨rfl, j + 1, by omega, by omega, rfl, hag, ?_⟩
      intro k hk1 hk2
      omega

/-- The exit code of `main` is 0 when `test_Counter` returns true and 1 otherwise. -/
theorem main_on_exit {σ : Type} (adv : σ → σ) (egress : σ → Egressed) (s0 : σ)
    (rst : σ → σ) :
    (main_on adv egress rst s0).1 = (if (test_Counter_on adv egress s0).1 then 0 else 1) := by
  unfold main_on
  generalize test_Counter_on adv egress s0 = r
  obtain ⟨b, l⟩ := r
  cases b <;> rfl


/-! ## `optimize()` leaves the simulation unchanged -/

theorem wireVals_append (st : State) (l1 l2 : List node) (acc : List Bool) :
    wireVals st (l1 ++ l2) acc = wireVals st l2 (wireVals st l1 acc) := by
  induction l1 generalizing acc with
  | nil => rfl
  | cons g l1 ih =>
    show wireVals st (l1 ++ l2) (acc ++ [evalW st acc g]) = _
    rw [ih]
    rfl

theorem wireVals_snoc (st : State) (tbl : List node) (g : node) :
    wireVals st (tbl ++ [g]) [] =
      wireVals st tbl [] ++ [evalW st (wireVals st tbl []) g] := by
  rw [wireVals_append]
  rfl

/-- The values already computed stay as they are while the rest of the table is
evaluated. -/
theorem wireVals_prefix (st : State) (l : List node) (acc : List Bool) :
    ∃ s, wireVals st l acc = acc ++ s ∧ s.length = l.length := by
  induction l generalizing acc with
  | nil => exact ⟨[], by simp [wireVals]⟩
  | cons g l ih =>
    obtain ⟨s, hs, hl⟩ := ih (acc ++ [evalW st acc g])
    refine ⟨evalW st acc g :: s, ?_, by simp [hl]⟩
    rw [wireVals, hs]
    simp

theorem wireVals_length (st : State) (tbl : List node) :
    (wireVals st tbl []).length = tbl.length := by
  obtain ⟨s, hs, hl⟩ := wireVals_prefix st tbl []
  rw [hs]
  simpa using hl

theorem wireVals_extend (st : State) (tbl s : List node) :
    ∃ s1, wireVals st (tbl ++ s) [] = wireVals st tbl [] ++ s1 := by
  rw [wireVals_append]
  obtain ⟨s1, hs, _⟩ := wireVals_prefix st s (wireVals st tbl [])
  exact ⟨s1, hs⟩

theorem Scoped_mono (n m : Nat) (h : n ≤ m) (e : node) (he : Scoped n e) : Scoped m e := by
  induction e with
  | lit v => trivial
  | reg i => trivial
  | ctr k bit => trivial
  | wire i => exact Nat.lt_of_lt_of_le he h
  | inv a ih => exact ih he
  | xor a b iha ihb => exact ⟨iha he.1, ihb he.2⟩

/-- A signal that refers to the values `w` only keeps its value when more values
follow. -/
theorem evalW_ext (st : State) (w s : List Bool) (e : node) (he : Scoped w.length e) :
    evalW st (w ++ s) e = evalW st w e := by
  induction e with
  | lit v => rfl
  | reg i => rfl
  | ctr k bit => rfl
  | wire i =>
    have hi : i < w.length := he
    simp only [evalW, List.getD_eq_getElem?_getD, List.getElem?_append_left hi]
  | inv a ih => simp only [evalW, ih he]
  | xor a b iha ihb => simp only [evalW, iha he.1, ihb he.2]

theorem evalW_raw (st : State) (w : List Bool) (e : node) (he : Scoped 0 e) :
    evalW st w e = eval st e := by
  have h := evalW_ext st [] w e he
  simpa using h

theorem evalW_stable (st : State) (tbl s : List node) (e : node)
    (he : Scoped tbl.length e) :
    evalW st (wireVals st (tbl ++ s) []) e = evalW st (wireVals st tbl []) e := by
  obtain ⟨s1, hs⟩ := wireVals_extend st tbl s
  rw [hs]
  apply evalW_ext
  rw [wireVals_length]
  exact he

theorem TableOk_nil : TableOk [] := by
  constructor
  · intro g hg
    cases hg
  · intro st j hj
    cases hj

/-- Storing a node in the table keeps the table sound, and the signal returned
has the value of the node. -/
theorem share_spec (g : node) (tbl : List node) (hok : TableOk tbl)
    (hg : Scoped tbl.length g) :
    TableOk (share g tbl).2 ∧ (∃ s, (share g tbl).2 = tbl ++ s) ∧
    Scoped (share g tbl).2.length (share g tbl).1 ∧
    ∀ st, evalW st (wireVals st (share g tbl).2 []) (share g tbl).1 =
      evalW st (wireVals st tbl []) g := by
  unfold share
  by_cases hmem : g ∈ tbl
  · rw [if_pos hmem]
    have hj : tbl.indexOf g < tbl.length := List.indexOf_lt_length.mpr hmem
    refine ⟨hok, ⟨[], by simp⟩, hj, ?_⟩
    intro st
    have h1 := hok.2 st _ hj
    have h2 : tbl.getD (tbl.indexOf g) (node.lit false) = g := by
      rw [List.getD_eq_getElem?_getD, List.getElem?_indexOf hmem]
      rfl
    rw [h2] at h1
    exact h1
  · rw [if_neg hmem]
    have hlen : (tbl ++ [g]).length = tbl.length + 1 := by simp
    refine ⟨⟨?_, ?_⟩, ⟨[g], rfl⟩, ?_, ?_⟩
    · intro x hx
      rw [hlen]
      rcases List.mem_append.mp hx with h | h
      · exact Scoped_mono _ _ (Nat.le_succ _) x (hok.1 x h)
      · rw [List.mem_singleton.mp h]
        exact Scoped_mono _ _ (Nat.le_succ _) g hg
    · intro st j hj
      rw [hlen] at hj
      rw [wireVals_snoc]
      have hwl := wireVals_length st tbl
      by_cases hjl : j < tbl.length
      · have e1 : (wireVals st tbl [] ++ [evalW st (wireVals st tbl []) g]).getD j false =
            (wireVals st tbl []).getD j false := by
          simp only [List.getD_eq_getElem?_getD]
          rw [List.getElem?_append_left (by omega)]
        have e2 : (tbl ++ [g]).getD j (node.lit false) = tbl.getD j (node.lit false) := by
          simp only [List.getD_eq_getElem?_getD]
          rw [List.getElem?_append_left hjl]
        have hsc : Scoped tbl.length (tbl.getD j (node.lit false)) := by
          apply hok.1
          rw [List.getD_eq_getElem?_getD, List.getElem?_eq_getElem hjl]
          exact List.getElem_mem _
        rw [e1, e2, hok.2 st j hjl]
        symm
        apply evalW_ext
        rw [hwl]
        exact hsc
      · have hje : j = tbl.length := by omega
        subst hje
        have e1 : (wireVals st tbl [] ++ [evalW st (wireVals st tbl []) g]).getD tbl.length false =
            evalW st (wireVals st tbl []) g := by
          simp only [List.getD_eq_getElem?_getD]
          rw [List.getElem?_append_right (by omega)]
          simp [hwl]
        have e2 : (tbl ++ [g]).getD tbl.length (node.lit false) = g := by
          simp only [List.getD_eq_getElem?_getD]
          rw [List.getElem?_append_right (by omega)]
          simp
        rw [e1, e2]
        symm
        apply evalW_ext
        rw [hwl]
        exact hg
    · show tbl.length < (tbl ++ [g]).length
      omega
    · intro st
      rw [wireVals_snoc]
      have hwl := wireVals_length st tbl
      simp only [evalW, List.getD_eq_getElem?_getD]
      rw [List.getElem?_append_right (by omega)]
      simp [hwl]

/-- Putting an expression of the graph as wired in shared form keeps the table
sound, and the signal returned has the value of the expression. -/
theorem intern_spec (e : node) (tbl : List node) (hok : TableOk tbl) (he : Scoped 0 e) :
    TableOk (intern e tbl).2 ∧ (∃ s, (intern e tbl).2 = tbl ++ s) ∧
    Scoped (intern e tbl).2.length (intern e tbl).1 ∧
    ∀ st, evalW st (wireVals st (intern e tbl).2 []) (intern e tbl).1 = eval st e := by
  induction e generalizing tbl with
  | lit v => exact ⟨hok, ⟨[], by simp [intern]⟩, trivial, fun _ => rfl⟩
  | reg i => exact ⟨hok, ⟨[], by simp [intern]⟩, trivial, fun _ => rfl⟩
  | ctr k bit => exact ⟨hok, ⟨[], by simp [intern]⟩, trivial, fun _ => rfl⟩
  | wire i => exact absurd he (Nat.not_lt_zero i)
  | inv a ih =>
    obtain ⟨ok1, ⟨s1, hs1⟩, sc1, v1⟩ := ih tbl hok he
    have hg : Scoped (intern a tbl).2.length (node.inv (intern a tbl).1) := sc1
    obtain ⟨ok2, ⟨s2, hs2⟩, sc2, v2⟩ := share_spec _ _ ok1 hg
    have hdef : intern (node.inv a) tbl =
        share (node.inv (intern a tbl).1) (intern a tbl).2 := rfl
    rw [hdef]
    refine ⟨ok2, ⟨s1 ++ s2, ?_⟩, sc2, ?_⟩
    · rw [hs2, hs1, List.append_assoc]
    · intro st
      rw [v2 st]
      show (!(evalW st (wireVals st (intern a tbl).2 []) (intern a tbl).1)) = !(eval st a)
      rw [v1 st]
  | xor a b iha ihb =>
    obtain ⟨ok1, ⟨s1, hs1⟩, sc1, v1⟩ := iha tbl hok he.1
    obtain ⟨ok2, ⟨s2, hs2⟩, sc2, v2⟩ := ihb (intern a tbl).2 ok1 he.2
    have hlen : (intern a tbl).2.length ≤ (intern b (intern a tbl).2).2.length := by
      rw [hs2]
      simp
    have hg : Scoped (intern b (intern a tbl).2).2.length
        (node.xor (intern a tbl).1 (intern b (intern a tbl).2).1) :=
      ⟨Scoped_mono _ _ hlen _ sc1, sc2⟩
    obtain ⟨ok3, ⟨s3, hs3⟩, sc3, v3⟩ := share_spec _ _ ok2 hg
    have hdef : intern (node.xor a b) tbl =
        share (node.xor (intern a tbl).1 (intern b (intern a tbl).2).1)
          (intern b (intern a tbl).2).2 := rfl
    rw [hdef]
    refine ⟨ok3, ⟨s1 ++ (s2 ++ s3), ?_⟩, sc3, ?_⟩
    · rw [hs3, hs2, hs1, List.append_assoc, List.append_assoc]
    · intro st
      rw [v3 st]
      show Bool.xor (evalW st (wireVals st (intern b (intern a tbl).2).2 []) (intern a tbl).1)
          (evalW st (wireVals st (intern b (intern a tbl).2).2 [])
            (intern b (intern a tbl).2).1) = Bool.xor (eval st a) (eval st b)
      rw [v2 st]
      have h1 := evalW_stable st (intern a tbl).2 s2 (intern a tbl).1 sc1
      rw [← hs2] at h1
      rw [h1, v1 st]

/-- The result of putting a list in shared form, entry by entry: each new entry
is the old one with its expression replaced by a signal of the same value on
every table that extends the final one. -/
theorem internMap_spec {α : Type} (get : α → node) (set : α → node → α)
    (hgs : ∀ x n, get (set x n) = n) (xs : List α) (tbl : List node) (hok : TableOk tbl)
    (hraw : ∀ x ∈ xs, Scoped 0 (get x)) :
    TableOk (internMap get set xs tbl).2 ∧ (∃ s, (internMap get set xs tbl).2 = tbl ++ s) ∧
    List.Forall₂
      (fun y x => (∃ n, y = set x n) ∧ Scoped 0 (get x) ∧
        ∀ st s, evalW st (wireVals st ((internMap get set xs tbl).2 ++ s) []) (get y) =
          eval st (get x))
      (internMap get set xs tbl).1 xs := by
  induction xs generalizing tbl with
  | nil => exact ⟨hok, ⟨[], by simp [internMap]⟩, List.Forall₂.nil⟩
  | cons x xs ih =>
    obtain ⟨ok1, ⟨s1, hs1⟩, sc1, v1⟩ :=
      intern_spec (get x) tbl hok (hraw x (List.mem_cons_self _ _))
    obtain ⟨ok2, ⟨s2, hs2⟩, hall⟩ :=
      ih (intern (get x) tbl).2 ok1 (fun y hy => hraw y (List.mem_cons_of_mem _ hy))
    have hdef : internMap get set (x :: xs) tbl =
        (set x (intern (get x) tbl).1 :: (internMap get set xs (intern (get x) tbl).2).1,
         (internMap get set xs (intern (get x) tbl).2).2) := rfl
    rw [hdef]
    refine ⟨ok2, ⟨s1 ++ s2, ?_⟩, ?_⟩
    · show (internMap get set xs (intern (get x) tbl).2).2 = tbl ++ (s1 ++ s2)
      rw [hs2, hs1, List.append_assoc]
    · apply List.Forall₂.cons
      · refine ⟨⟨_, rfl⟩, hraw x (List.mem_cons_self _ _), ?_⟩
        intro st s
        show evalW st (wireVals st ((internMap get set xs (intern (get x) tbl).2).2 ++ s) [])
          (get (set x (intern (get x) tbl).1)) = eval st (get x)
        rw [hgs, hs2, List.append_assoc, evalW_stable st _ _ _ sc1, v1 st]
      · exact hall

theorem internVecs_spec (vs : List (List node)) (tbl : List node) (hok : TableOk tbl)
    (hraw : ∀ v ∈ vs, ∀ e ∈ v, Scoped 0 e) :
    TableOk (internVecs vs tbl).2 ∧ (∃ s, (internVecs vs tbl).2 = tbl ++ s) ∧
    ∀ st s, (internVecs vs tbl).1.map
        (evalVec st (wireVals st ((internVecs vs tbl).2 ++ s) [])) =
      vs.map (fun v => v.map (eval st)) := by
  induction vs generalizing tbl with
  | nil => exact ⟨hok, ⟨[], by simp [internVecs]⟩, fun _ _ => rfl⟩
  | cons v vs ih =>
    obtain ⟨ok1, ⟨s1, hs1⟩, h1⟩ :=
      internMap_spec id (fun _ n => n) (fun _ _ => rfl) v tbl hok
        (hraw v (List.mem_cons_self _ _))
    obtain ⟨ok2, ⟨s2, hs2⟩, h2⟩ :=
      ih (internMap id (fun _ n => n) v tbl).2 ok1
        (fun u hu => hraw u (List.mem_cons_of_mem _ hu))
    have hdef : internVecs (v :: vs) tbl =
        ((internMap id (fun _ n => n) v tbl).1 ::
           (internVecs vs (internMap id (fun _ n => n) v tbl).2).1,
         (internVecs vs (internMap id (fun _ n => n) v tbl).2).2) := rfl
    rw [hdef]
    refine ⟨ok2, ⟨s1 ++ s2, ?_⟩, ?_⟩
    · show (internVecs vs (internMap id (fun _ n => n) v tbl).2).2 = tbl ++ (s1 ++ s2)
      rw [hs2, hs1, List.append_assoc]
    · intro st s
      show evalVec st _ (internMap id (fun _ n => n) v tbl).1 ::
          (internVecs vs (internMap id (fun _ n => n) v tbl).2).1.map _ = v.map (eval st) :: _
      rw [h2 st s]
      congr 1
      unfold evalVec
      rw [← List.forall₂_eq_eq_eq, List.forall₂_map_left_iff, List.forall₂_map_right_iff]
      apply List.Forall₂.imp _ h1
      intro y x hyx
      have := hyx.2.2 st (s2 ++ s)
      rw [← List.append_assoc, ← hs2] at this
      exact this

theorem internMap_keeps {α β : Type} (get : α → node) (set : α → node → α) (f : α → β)
    (hf : ∀ x n, f (set x n) = f x) (xs : List α) (tbl : List node) :
    (internMap get set xs tbl).1.map f = xs.map f := by
  induction xs generalizing tbl with
  | nil => rfl
  | cons x xs ih =>
    show f (set x _) :: (internMap get set xs _).1.map f = f x :: xs.map f
    rw [hf, ih]

theorem zipWith_forall₂ {α β γ : Type} (R : α → α → Prop) (f g : α → β → γ)
    (h : ∀ a b, R a b → ∀ n, f a n = g b n) (xs1 xs : List α) (hr : List.Forall₂ R xs1 xs)
    (ys : List β) : List.zipWith f xs1 ys = List.zipWith g xs ys := by
  induction hr generalizing ys with
  | nil => rfl
  | cons hab _ ih =>
    cases ys with
    | nil => rfl
    | cons y ys => simp only [List.zipWith_cons_cons, h _ _ hab y, ih ys]

theorem evalVec_raw (st : State) (w : List Bool) (v : List node) (hv : ∀ e ∈ v, Scoped 0 e) :
    evalVec st w v = v.map (eval st) := by
  unfold evalVec
  apply List.map_congr_left
  intro e he
  exact evalW_raw st w e (hv e he)

theorem power_on_optimize (c : Circuit) : power_on (optimize c) = power_on c := by
  have h1 := internMap_keeps (fun r : Register => r.next) (fun r n => { r with next := n })
    (fun r => r.init) (fun _ _ => rfl) c.regs []
  have h2 := internMap_keeps (fun ci : CounterInst => ci.input)
    (fun ci n => { ci with input := n }) (fun _ => 0) (fun _ _ => rfl) c.counters
    (internMap (fun r : Register => r.next) (fun r n => { r with next := n }) c.regs []).2
  unfold power_on optimize
  simp only [h1, h2]

/-- One tick of the optimized graph is one tick of the graph as wired. -/
theorem advance_optimize (c : Circuit) (h : Raw c) (st : State) :
    advance (optimize c) st = advance c st := by
  obtain ⟨hr, hc, ht, he⟩ := h
  obtain ⟨ok1, _, f1⟩ := internMap_spec (fun r : Register => r.next)
    (fun r n => { r with next := n }) (fun _ _ => rfl) c.regs [] TableOk_nil hr
  obtain ⟨ok2, ⟨s2, hs2⟩, f2⟩ := internMap_spec (fun ci : CounterInst => ci.input)
    (fun ci n => { ci with input := n }) (fun _ _ => rfl) c.counters _ ok1 hc
  obtain ⟨ok3, ⟨s3, hs3⟩, _⟩ := internVecs_spec c.taps _ ok2 ht
  obtain ⟨_, ⟨s4, hs4⟩, _⟩ := internVecs_spec c.egress _ ok3 he
  unfold advance optimize
  simp only
  congr 1
  · rw [← List.forall₂_eq_eq_eq, List.forall₂_map_left_iff, List.forall₂_map_right_iff]
    apply List.Forall₂.imp _ f1
    intro y x hyx
    have := hyx.2.2 st (s2 ++ (s3 ++ s4))
    rw [← List.append_assoc, ← List.append_assoc, ← hs2, ← hs3, ← hs4] at this
    rw [this]
    exact (evalW_raw st _ _ hyx.2.1).symm
  · apply zipWith_forall₂ _ _ _ _ _ _ f2
    intro y x hyx n
    have := hyx.2.2 st (s3 ++ s4)
    rw [← List.append_assoc, ← hs3, ← hs4] at this
    obtain ⟨m, hm⟩ := hyx.1
    have hw : y.width = x.width := by rw [hm]
    unfold CounterInst.tick
    rw [this, hw, evalW_raw st _ _ hyx.2.1]

/-- The optimized graph goes through the same states as the graph as wired. -/
theorem after_optimize (c : Circuit) (h : Raw c) (t : Nat) :
    after (advance (optimize c)) (power_on (optimize c)) t =
      after (advance c) (power_on c) t := by
  induction t with
  | zero => exact power_on_optimize c
  | succ t ih =>
    show advance (optimize c) _ = advance c _
    rw [ih, advance_optimize c h]

theorem tapVals_optimize (c : Circuit) (h : Raw c) (st : State) :
    tapVals (optimize c) st = tapVals c st := by
  obtain ⟨hr, hc, ht, he⟩ := h
  obtain ⟨ok1, _, _⟩ := internMap_spec (fun r : Register => r.next)
    (fun r n => { r with next := n }) (fun _ _ => rfl) c.regs [] TableOk_nil hr
  obtain ⟨ok2, _, _⟩ := internMap_spec (fun ci : CounterInst => ci.input)
    (fun ci n => { ci with input := n }) (fun _ _ => rfl) c.counters _ ok1 hc
  obtain ⟨ok3, _, f3⟩ := internVecs_spec c.taps _ ok2 ht
  obtain ⟨_, ⟨s4, hs4⟩, _⟩ := internVecs_spec c.egress _ ok3 he
  have h3 := f3 st s4
  rw [← hs4] at h3
  unfold tapVals
  have hraw : c.taps.map (evalVec st (wireVals st c.wires [])) =
      c.taps.map (fun v => v.map (eval st)) := by
    apply List.map_congr_left
    intro v hv
    exact evalVec_raw st _ v (ht v hv)
  rw [hraw, ← h3]
  rfl

theorem egressVals_optimize (c : Circuit) (h : Raw c) (st : State) :
    egressVals (optimize c) st = egressVals c st := by
  obtain ⟨hr, hc, ht, he⟩ := h
  obtain ⟨ok1, _, _⟩ := internMap_spec (fun r : Register => r.next)
    (fun r n => { r with next := n }) (fun _ _ => rfl) c.regs [] TableOk_nil hr
  obtain ⟨ok2, _, _⟩ := internMap_spec (fun ci : CounterInst => ci.input)
    (fun ci n => { ci with input := n }) (fun _ _ => rfl) c.counters _ ok1 hc
  obtain ⟨ok3, _, _⟩ := internVecs_spec c.taps _ ok2 ht
  obtain ⟨_, _, f4⟩ := internVecs_spec c.egress _ ok3 he
  have h4 := f4 st []
  rw [List.append_nil] at h4
  unfold egressVals
  have hraw : c.egress.map (evalVec st (wireVals st c.wires [])) =
      c.egress.map (fun v => v.map (eval st)) := by
    apply List.map_congr_left
    intro v hv
    exact evalVec_raw st _ v (he v hv)
  rw [hraw, ← h4]
  rfl

theorem hostVars_eq (c : Circuit) (st : State) :
    hostVars c st = (egressVals c st).map toUInt := by
  simp [hostVars, egressVals, Function.comp_def]

theorem hostVars_optimize (c : Circuit) (h : Raw c) (st : State) :
    hostVars (optimize c) st = hostVars c st := by
  rw [hostVars_eq, hostVars_eq, egressVals_optimize c h]

/-! ## The test bench circuit -/

theorem wiring_counters (W sx sy : Nat) :
    (test_Counter_wiring W sx sy).counters =
      [{ input := node.xor (node.reg 0) (node.reg 14), width := W },
       { input := node.xor (node.reg 16) (node.reg 30), width := W }] := by
  simp [test_Counter_wiring, Lfsr, Counter, Egress, EgressInt, Circuit.empty, XorN]

theorem wiring_egress (W sx sy : Nat) :
    (test_Counter_wiring W sx sy).egress =
      [[node.xor (node.reg 0) (node.reg 14)], [node.xor (node.reg 16) (node.reg 30)],
       (List.range W).map (fun bit => node.ctr 0 bit),
       (List.range W).map (fun bit => node.ctr 1 bit)] := by
  simp [test_Counter_wiring, Lfsr, Counter, Egress, EgressInt, Circuit.empty, XorN]

/-- At power-on the two LFSR outputs of the bench are those of the two
generators taken alone. -/
theorem wiring_out0 (W sx sy : Nat) :
    eval (power_on (test_Counter_wiring W sx sy)) (node.xor (node.reg 0) (node.reg 14)) =
        lfsrOutput sx 0 ∧
    eval (power_on (test_Counter_wiring W sx sy)) (node.xor (node.reg 16) (node.reg 30)) =
        lfsrOutput sy 0 := by
  constructor
  · simp [test_Counter_wiring, lfsrOutput, lfsrState, after, lfsrOut, lfsrCircuit, Lfsr, Counter,
      Egress, EgressInt, Circuit.empty, XorN, power_on, eval, evalW, range15]
  · simp [test_Counter_wiring, lfsrOutput, lfsrState, after, lfsrOut, lfsrCircuit, Lfsr, Counter,
      Egress, EgressInt, Circuit.empty, XorN, power_on, eval, evalW, range15]

theorem wiring_wires (W sx sy : Nat) : (test_Counter_wiring W sx sy).wires = [] := by
  simp [test_Counter_wiring, Lfsr, Counter, Egress, EgressInt, Circuit.empty]

/-- The graph wired by `test_Counter` has no reference to shared nodes before
`optimize()`. -/
theorem wiring_raw (W sx sy : Nat) : Raw (test_Counter_wiring W sx sy) := by
  refine ⟨?_, ?_, ?_, ?_⟩
  · intro r hr
    simp only [test_Counter_wiring, Lfsr, Counter, Egress, EgressInt, Circuit.empty, XorN,
      List.nil_append, List.length_cons, List.length_map, List.length_range, List.length_nil,
      List.mem_append, List.mem_cons, List.mem_map, List.mem_range] at hr
    rcases hr with (h | ⟨j, _, h⟩) | h | ⟨j, _, h⟩ <;> subst h <;> simp [Scoped]
  · intro ci hci
    rw [wiring_counters] at hci
    simp only [List.mem_cons, List.mem_singleton, List.not_mem_nil, or_false] at hci
    rcases hci with h | h <;> subst h <;> simp [Scoped]
  · intro v hv e he
    simp only [test_Counter_wiring, Lfsr, Counter, Egress, EgressInt, Circuit.empty, XorN,
      List.nil_append, List.mem_append, List.mem_cons, List.mem_singleton, List.not_mem_nil,
      or_false] at hv
    rcases hv with (h | h | h) | h | h | h <;> subst h <;>
      simp only [List.mem_map, List.mem_range, List.mem_cons, List.mem_singleton,
        List.not_mem_nil, or_false] at he
    all_goals first
      | (obtain ⟨j, _, h⟩ := he; subst h; simp [Scoped])
      | (rcases he with h | h <;> subst h <;> simp [Scoped])
      | (subst he; simp [Scoped])
  · intro v hv e he
    rw [wiring_egress] at hv
    simp only [List.mem_cons, List.mem_singleton, List.not_mem_nil, or_false] at hv
    rcases hv with h | h | h | h <;> subst h <;>
      simp only [List.mem_map, List.mem_range, List.mem_cons, List.mem_singleton,
        List.not_mem_nil, or_false] at he
    all_goals first
      | (obtain ⟨j, _, h⟩ := he; subst h; simp [Scoped])
      | (subst he; simp [Scoped])

theorem toUInt_ctr (st : State) (w : List Bool) (W k : Nat) :
    toUInt (evalVec st w ((List.range W).map (fun bit => node.ctr k bit))) =
      st.counts.getD k 0 % 2 ^ W := by
  rw [← toUInt_testBit_range]
  simp only [evalVec, List.map_map, Function.comp_def, evalW]

/-- What the bench writes to the four host variables: the two LFSR outputs and
the two counts. -/
theorem benchEgress_wiring (W sx sy : Nat) (st : State) :
    benchEgress (test_Counter_wiring W sx sy) st =
      { xval := eval st (node.xor (node.reg 0) (node.reg 14)),
        yval := eval st (node.xor (node.reg 16) (node.reg 30)),
        cxval := st.counts.getD 0 0 % 2 ^ W,
        cyval := st.counts.getD 1 0 % 2 ^ W } := by
  have h0 := toUInt_ctr st [] W 0
  have h1 := toUInt_ctr st [] W 1
  simp only [benchEgress, hostVars, wiring_egress, wiring_wires, wireVals, List.map_cons,
    List.map_nil, h0, h1]
  have hb : ∀ e : node, decide (toUInt (evalVec st [] [e]) ≠ 0) = eval st e := by
    intro e
    have he : evalVec st [] [e] = [eval st e] := rfl
    rw [he]
    cases h : eval st e <;> simp [toUInt]
  simp [hb]

theorem wiring_counts_power_on (W sx sy : Nat) :
    (power_on (test_Counter_wiring W sx sy)).counts = [0, 0] := by
  simp [power_on, wiring_counters]

theorem wiring_counts_advance (W sx sy : Nat) (st : State) (a b : Nat)
    (h : st.counts = [a, b]) :
    (advance (test_Counter_wiring W sx sy) st).counts =
      [if eval st (node.xor (node.reg 0) (node.reg 14)) then (a + 1) % 2 ^ W else a,
       if eval st (node.xor (node.reg 16) (node.reg 30)) then (b + 1) % 2 ^ W else b] := by
  simp [advance, wiring_counters, wiring_wires, wireVals, h, CounterInst.tick, eval]

theorem internMap_ctr (k : Nat) (l : List Nat) (tbl : List node) :
    internMap id (fun _ n => n) (l.map (fun bit => node.ctr k bit)) tbl =
      (l.map (fun bit => node.ctr k bit), tbl) := by
  induction l with
  | nil => rfl
  | cons a l ih =>
    simp only [List.map_cons, internMap, intern, id, ih]

/-- What `optimize()` makes of the graph wired by `test_Counter`: four shared
nodes, the XOR and its negation for each LFSR; each XOR is stored once and read
by the negation, by the Counter input, by the tap and by the egress binding. -/
theorem optimize_wiring (W sx sy : Nat) :
    (optimize (test_Counter_wiring W sx sy)).wires =
      [node.xor (node.reg 0) (node.reg 14), node.inv (node.wire 0),
       node.xor (node.reg 16) (node.reg 30), node.inv (node.wire 2)] ∧
    (optimize (test_Counter_wiring W sx sy)).counters =
      [{ input := node.wire 0, width := W }, { input := node.wire 2, width := W }] ∧
    (optimize (test_Counter_wiring W sx sy)).egress =
      [[node.wire 0], [node.wire 2],
       (List.range W).map (fun bit => node.ctr 0 bit),
       (List.range W).map (fun bit => node.ctr 1 bit)] := by
  simp [optimize, test_Counter_wiring, Lfsr, Counter, Egress, EgressInt, Circuit.empty, XorN,
    range15, internMap, internVecs, intern, share, internMap_ctr]

/-! ## The bench, cycle by cycle -/

theorem benchState_wiring (W sx sy t : Nat) :
    benchState W sx sy t =
      after (advance (test_Counter_wiring W sx sy)) (power_on (test_Counter_wiring W sx sy)) t :=
  after_optimize _ (wiring_raw W sx sy) t

theorem benchState_succ (W sx sy t : Nat) :
    benchState W sx sy (t + 1) =
      advance (test_Counter_wiring W sx sy) (benchState W sx sy t) := by
  rw [benchState_wiring, benchState_wiring]
  rfl

theorem benchHost_eq (W sx sy t : Nat) :
    benchHost W sx sy t =
      { xval := eval (benchState W sx sy t) (node.xor (node.reg 0) (node.reg 14)),
        yval := eval (benchState W sx sy t) (node.xor (node.reg 16) (node.reg 30)),
        cxval := (benchState W sx sy t).counts.getD 0 0 % 2 ^ W,
        cyval := (benchState W sx sy t).counts.getD 1 0 % 2 ^ W } := by
  rw [← benchEgress_wiring W sx sy]
  unfold benchHost benchEgress
  rw [benchState_wiring, test_Counter_circuit, hostVars_optimize _ (wiring_raw W sx sy)]

theorem benchRefX_succ (W sx sy k : Nat) :
    benchRefX W sx sy (k + 2) =
      benchRefX W sx sy (k + 1) + (benchHost W sx sy (k + 1)).xval.toNat := rfl

theorem benchRefY_succ (W sx sy k : Nat) :
    benchRefY W sx sy (k + 2) =
      benchRefY W sx sy (k + 1) + (benchHost W sx sy (k + 1)).yval.toNat := rfl

theorem benchRef_one (W sx sy : Nat) :
    benchRefX W sx sy 1 = 0 ∧ benchRefY W sx sy 1 = 0 := ⟨rfl, rfl⟩

theorem benchState_zero_out (W sx sy : Nat) :
    eval (benchState W sx sy 0) (node.xor (node.reg 0) (node.reg 14)) = lfsrOutput sx 0 ∧
    eval (benchState W sx sy 0) (node.xor (node.reg 16) (node.reg 30)) = lfsrOutput sy 0 := by
  rw [benchState_wiring]
  exact wiring_out0 W sx sy

/-- Each Counter is ahead of its reference counter by the LFSR output of cycle 0:
the host variable starts false whatever that output is. -/
theorem bench_counts (W sx sy k : Nat) (hk : k + 1 < 2 ^ W) :
    (benchState W sx sy (k + 1)).counts =
      [benchRefX W sx sy (k + 1) + (lfsrOutput sx 0).toNat,
       benchRefY W sx sy (k + 1) + (lfsrOutput sy 0).toNat] ∧
    benchRefX W sx sy (k + 1) + (lfsrOutput sx 0).toNat ≤ k + 1 ∧
    benchRefY W sx sy (k + 1) + (lfsrOutput sy 0).toNat ≤ k + 1 := by
  induction k with
  | zero =>
    have h0 : (benchState W sx sy 0).counts = [0, 0] := by
      rw [benchState_wiring]; exact wiring_counts_power_on W sx sy
    have hc := wiring_counts_advance W sx sy _ 0 0 h0
    rw [← benchState_succ] at hc
    obtain ⟨hx, hy⟩ := benchState_zero_out W sx sy
    obtain ⟨rx, ry⟩ := benchRef_one W sx sy
    have h1 : 1 % 2 ^ W = 1 := Nat.mod_eq_of_lt hk
    rw [hc, hx, hy, rx, ry]
    cases lfsrOutput sx 0 <;> cases lfsrOutput sy 0 <;> simp [h1]
  | succ k ih =>
    obtain ⟨hc, hbx, hby⟩ := ih (by omega)
    have hs := wiring_counts_advance W sx sy _ _ _ hc
    rw [← benchState_succ] at hs
    have hh := benchHost_eq W sx sy (k + 1)
    have hxv := congrArg Egressed.xval hh
    have hyv := congrArg Egressed.yval hh
    simp only at hxv hyv
    rw [hs, benchRefX_succ, benchRefY_succ, hxv, hyv]
    have mx : (benchRefX W sx sy (k + 1) + (lfsrOutput sx 0).toNat + 1) % 2 ^ W =
        benchRefX W sx sy (k + 1) + (lfsrOutput sx 0).toNat + 1 :=
      Nat.mod_eq_of_lt (by omega)
    have my : (benchRefY W sx sy (k + 1) + (lfsrOutput sy 0).toNat + 1) % 2 ^ W =
        benchRefY W sx sy (k + 1) + (lfsrOutput sy 0).toNat + 1 :=
      Nat.mod_eq_of_lt (by omega)
    rw [mx, my]
    generalize eval (benchState W sx sy (k + 1)) (node.xor (node.reg 0) (node.reg 14)) = bx
    generalize eval (benchState W sx sy (k + 1)) (node.xor (node.reg 16) (node.reg 30)) = bY
    cases bx <;> cases bY <;> simp <;> omega

/-- The egressed Counter values against the reference counters, after each
advance that does not overflow the Counter. -/
theorem bench_host_counts (W sx sy k : Nat) (hk : k + 1 < 2 ^ W) :
    (benchHost W sx sy (k + 1)).cxval = benchRefX W sx sy (k + 1) + (lfsrOutput sx 0).toNat ∧
    (benchHost W sx sy (k + 1)).cyval = benchRefY W sx sy (k + 1) + (lfsrOutput sy 0).toNat := by
  obtain ⟨hc, hbx, hby⟩ := bench_counts W sx sy k hk
  rw [benchHost_eq, hc]
  simp only [List.getD_cons_zero, List.getD_cons_succ]
  exact ⟨Nat.mod_eq_of_lt (by omega), Nat.mod_eq_of_lt (by omega)⟩

theorem bench_lanesAgree_iff (W sx sy k : Nat) (hk : k + 1 < 2 ^ W) :
    lanesAgree (advance (test_Counter_circuit W sx sy))
        (benchEgress (test_Counter_circuit W sx sy))
        (power_on (test_Counter_circuit W sx sy)) (k + 1) ↔
      (lfsrOutput sx 0 = false ∧ lfsrOutput sy 0 = false) := by
  obtain ⟨hx, hy⟩ := bench_host_counts W sx sy k hk
  have ex : (benchEgress (test_Counter_circuit W sx sy)
      (after (advance (test_Counter_circuit W sx sy))
        (power_on (test_Counter_circuit W sx sy)) (k + 1))) = benchHost W sx sy (k + 1) := rfl
  unfold lanesAgree
  rw [ex, hx, hy]
  have e1 : refX (advance (test_Counter_circuit W sx sy))
      (benchEgress (test_Counter_circuit W sx sy))
      (power_on (test_Counter_circuit W sx sy)) (k + 1) = benchRefX W sx sy (k + 1) := rfl
  have e2 : refY (advance (test_Counter_circuit W sx sy))
      (benchEgress (test_Counter_circuit W sx sy))
      (power_on (test_Counter_circuit W sx sy)) (k + 1) = benchRefY W sx sy (k + 1) := rfl
  rw [e1, e2]
  cases lfsrOutput sx 0 <;> cases lfsrOutput sy 0 <;> simp

/-- The verdict of the loop of the bench for `n` cycles within the Counter width. -/
theorem bench_run_verdict (W sx sy n : Nat) (hn : n < 2 ^ W) :
    ((test_Counter_run W sx sy n).1 = true ↔
      (n = 0 ∨ (lfsrOutput sx 0 = false ∧ lfsrOutput sy 0 = false))) := by
  have hs := loop_spec (advance (test_Counter_circuit W sx sy))
    (benchEgress (test_Counter_circuit W sx sy))
    (power_on (test_Counter_circuit W sx sy)) n 0
  have hr : test_Counter_run W sx sy n =
      test_Counter_loop (advance (test_Counter_circuit W sx sy))
        (benchEgress (test_Counter_circuit W sx sy)) n
        (localsAt (advance (test_Counter_circuit W sx sy))
          (benchEgress (test_Counter_circuit W sx sy))
          (power_on (test_Counter_circuit W sx sy)) 0) := rfl
  rw [hr]
  simp only at hs
  rcases hs with ⟨h1, _, h3⟩ | ⟨h1, m, hm1, hm2, _, hm4, _⟩
  · rw [h1]
    simp only [true_iff]
    by_cases h0 : n = 0
    · exact Or.inl h0
    · right
      have := h3 1 (by omega) (by omega)
      exact (bench_lanesAgree_iff W sx sy 0 (by omega)).mp this
  · rw [h1]
    simp only [Bool.false_eq_true, false_iff, not_or]
    refine ⟨by omega, ?_⟩
    intro hz
    apply hm4
    obtain ⟨j, rfl⟩ : ∃ j, m = j + 1 := ⟨m - 1, by omega⟩
    exact (bench_lanesAgree_iff W sx sy j (by omega)).mpr hz

/-! ## The shift register as an integer -/

theorem lfsrIter_succ (n s : Nat) : lfsrIter (n + 1) s = lfsrIter n (lfsrStep s) := by
  rw [lfsrIter]
  cases lfsrStep s <;> rfl

theorem lfsrIter_add (m n s : Nat) : lfsrIter (m + n) s = lfsrIter n (lfsrIter m s) := by
  induction m generalizing s with
  | zero => simp [lfsrIter]
  | succ m ih => rw [Nat.add_right_comm, lfsrIter_succ, lfsrIter_succ, ih]

theorem lfsrIter_succ_right (n s : Nat) : lfsrIter (n + 1) s = lfsrStep (lfsrIter n s) := by
  rw [lfsrIter_add, lfsrIter_succ]
  rfl

/-- The integer value of the shift register of `Lfsr(seed)` after `t` advances. -/
theorem toUInt_lfsrState (seed t : Nat) :
    toUInt (lfsrState seed t).regs = lfsrIter t (seed % 2 ^ 16) := by
  induction t with
  | zero =>
    show toUInt (power_on (lfsrCircuit seed)).regs = seed % 2 ^ 16
    rw [lfsr_regs_power_on, toUInt_testBit_range]
  | succ t ih =>
    show toUInt (advance (lfsrCircuit seed) (lfsrState seed t)).regs = _
    rw [toUInt_lfsr_step, ih, lfsrIter_succ_right]

/-- The output bit of `Lfsr(seed)` at cycle `t` is the tap XOR of the integer
value of the shift register. -/
theorem lfsrOutput_eq (seed t : Nat) :
    (lfsrOutput seed t).toNat = lfsrTap (lfsrIter t (seed % 2 ^ 16)) := by
  rw [← toUInt_lfsrState, ← tap_xor_toNat, toUInt_testBit, toUInt_testBit]
  simp [lfsrOutput, lfsrOut_eq, eval, evalW, Circuit.empty]

/-- Bit 15 of the shift register feeds nothing: the tap XOR and the next value
depend on the low 15 bits alone. -/
theorem lfsrTap_low (s : Nat) : lfsrTap (s % 32768) = lfsrTap s := by
  unfold lfsrTap
  have h1 : s % 32768 % 2 = s % 2 := by omega
  have h2 : s % 32768 / 16384 % 2 = s / 16384 % 2 := by omega
  rw [h1, h2]

theorem lfsrStep_low (s : Nat) : lfsrStep (s % 32768) = lfsrStep s := by
  unfold lfsrStep
  rw [lfsrTap_low]
  congr 1
  omega

theorem lfsrIter_low (n a b : Nat) (h : a % 32768 = b % 32768) :
    lfsrIter (n + 1) a = lfsrIter (n + 1) b := by
  rw [lfsrIter_succ, lfsrIter_succ, ← lfsrStep_low a, ← lfsrStep_low b, h]

theorem lfsrTap_lt (s : Nat) : lfsrTap s < 2 := by
  unfold lfsrTap
  rcases Nat.mod_two_eq_zero_or_one s with h0 | h0 <;>
    rcases Nat.mod_two_eq_zero_or_one (s / 16384) with h1 | h1 <;>
    simp [h0, h1]

/-- A return of the low 15 bits of the shift register to their seed value after
`p` ticks makes the output sequence repeat with period `p`. -/
theorem lfsrOutput_periodic (seed p : Nat)
    (h : lfsrIter p (seed % 2 ^ 16) % 32768 = seed % 2 ^ 16 % 32768) (t : Nat) :
    lfsrOutput seed (t + p) = lfsrOutput seed t := by
  have key : lfsrTap (lfsrIter (t + p) (seed % 2 ^ 16)) = lfsrTap (lfsrIter t (seed % 2 ^ 16)) := by
    rw [Nat.add_comm, lfsrIter_add]
    cases t with
    | zero =>
      show lfsrTap (lfsrIter p (seed % 2 ^ 16)) = lfsrTap (seed % 2 ^ 16)
      rw [← lfsrTap_low, h, lfsrTap_low]
    | succ t => rw [lfsrIter_low t _ _ h]
  rw [← lfsrOutput_eq, ← lfsrOutput_eq] at key
  cases h1 : lfsrOutput seed (t + p) <;> cases h2 : lfsrOutput seed t <;> simp_all

theorem lfsr_5eed_returns : lfsrIter 32767 (0x5eed % 2 ^ 16) % 32768 = 0x5eed % 2 ^ 16 % 32768 := by
  decide!

/-! ## Reset -/

theorem counts_length_after (c : Circuit) (t : Nat) :
    (after (advance c) (power_on c) t).counts.length = c.counters.length := by
  induction t with
  | zero => simp [after, power_on]
  | succ t ih => simp [after, advance, ih]

theorem reset_eq_power_on (c : Circuit) (st : State)
    (h : st.counts.length = c.counters.length) : reset c st = power_on c := by
  simp only [reset, power_on, State.mk.injEq, true_and]
  apply List.ext_getElem
  · simp [h]
  · intro i h1 h2
    simp

theorem power_on_bench (W sx sy : Nat) :
    power_on (test_Counter_circuit W sx sy) =
      { regs := (List.range 16).map (fun i => sx.testBit i) ++
                (List.range 16).map (fun i => sy.testBit i),
        counts := [0, 0] } := by
  rw [test_Counter_circuit, power_on_optimize]
  have hx := seed_bit sx 0
  have hy := seed_bit sy 0
  simp only [Nat.shiftRight_zero] at hx hy
  rw [range_succ_map 15 (fun i => sx.testBit i), range_succ_map 15 (fun i => sy.testBit i)]
  simp [power_on, test_Counter_wiring, Lfsr, Counter, Egress, EgressInt, Circuit.empty, XorN,
    Function.comp_def, seed_bit, hx, hy]

theorem lfsr_step_ne_zero (s : Nat) : lfsrStep s ≠ 0 := by
  unfold lfsrStep lfsrTap
  rcases Nat.mod_two_eq_zero_or_one s with h0 | h0 <;>
    rcases Nat.mod_two_eq_zero_or_one (s / 16384) with h1 | h1 <;>
    simp [h0, h1] <;> omega

/-! ## Bit 15 and the all-ones state -/

/-- The transition of the shift register does not depend on the seed: the seed
sets the initial values only. -/
theorem advance_lfsrCircuit (a b : Nat) (st : State) :
    advance (lfsrCircuit a) st = advance (lfsrCircuit b) st := by
  simp [advance, lfsrCircuit, Lfsr, Circuit.empty, XorN, Function.comp_def, wireVals]

theorem lfsr_counts_advance (seed : Nat) (st : State) :
    (advance (lfsrCircuit seed) st).counts = [] := by
  simp [advance, lfsrCircuit, Lfsr, Circuit.empty, wireVals]

theorem testBit_xor_bit15 (s i : Nat) (hi : i < 15) :
    (s ^^^ 0x8000).testBit i = s.testBit i := by
  rw [Nat.testBit_xor]
  have h : (0x8000 : Nat).testBit i = false := by
    have e : (0x8000 : Nat) = 2 ^ 15 := by norm_num
    rw [e, Nat.testBit_two_pow]
    simp
    omega
  rw [h, Bool.xor_false]

theorem lfsrState_one_xor_bit15 (s : Nat) :
    lfsrState (s ^^^ 0x8000) 1 = lfsrState s 1 := by
  have h1 : lfsrState (s ^^^ 0x8000) 1 =
      advance (lfsrCircuit (s ^^^ 0x8000)) (power_on (lfsrCircuit (s ^^^ 0x8000))) := rfl
  have h2 : lfsrState s 1 = advance (lfsrCircuit s) (power_on (lfsrCircuit s)) := rfl
  have hb : ∀ i, i < 15 →
      (power_on (lfsrCircuit (s ^^^ 0x8000))).regs.getD i false =
        (power_on (lfsrCircuit s)).regs.getD i false := by
    intro i hi
    rw [lfsr_regs_power_on, lfsr_regs_power_on]
    have hi16 : i < 16 := by omega
    simp [hi16]
    rw [← Nat.testBit_xor]
    exact testBit_xor_bit15 s i hi
  have hr : (advance (lfsrCircuit (s ^^^ 0x8000)) (power_on (lfsrCircuit (s ^^^ 0x8000)))).regs =
      (advance (lfsrCircuit s) (power_on (lfsrCircuit s))).regs := by
    rw [lfsr_regs_advance, lfsr_regs_advance, hb 0 (by omega), hb 14 (by omega)]
    congr 1
    apply List.map_congr_left
    intro i hi
    exact hb i (List.mem_range.mp hi)
  have hc := lfsr_counts_advance (s ^^^ 0x8000) (power_on (lfsrCircuit (s ^^^ 0x8000)))
  have hc2 := lfsr_counts_advance s (power_on (lfsrCircuit s))
  rw [h1, h2]
  cases hA : advance (lfsrCircuit (s ^^^ 0x8000)) (power_on (lfsrCircuit (s ^^^ 0x8000)))
  cases hB : advance (lfsrCircuit s) (power_on (lfsrCircuit s))
  rw [hA] at hr hc
  rw [hB] at hr hc2
  simp only at hr hc hc2
  rw [hr, hc, hc2]

theorem lfsrState_succ_xor_bit15 (s t : Nat) :
    lfsrState (s ^^^ 0x8000) (t + 1) = lfsrState s (t + 1) := by
  induction t with
  | zero => exact lfsrState_one_xor_bit15 s
  | succ t ih =>
    have h1 : lfsrState (s ^^^ 0x8000) (t + 1 + 1) =
        advance (lfsrCircuit (s ^^^ 0x8000)) (lfsrState (s ^^^ 0x8000) (t + 1)) := rfl
    have h2 : lfsrState s (t + 1 + 1) = advance (lfsrCircuit s) (lfsrState s (t + 1)) := rfl
    rw [h1, h2, ih]
    exact advance_lfsrCircuit _ _ _

theorem lfsrOutput_xor_bit15 (s t : Nat) :
    lfsrOutput (s ^^^ 0x8000) t = lfsrOutput s t := by
  cases t with
  | zero =>
    have e : ∀ seed, lfsrOutput seed 0 = Bool.xor (seed.testBit 0) (seed.testBit 14) := by
      intro seed
      have h : lfsrOutput seed 0 = eval (power_on (lfsrCircuit seed)) (lfsrOut seed) := rfl
      rw [h, lfsrOut_eq]
      simp only [eval, evalW]
      rw [lfsr_regs_power_on]
      simp
    rw [e, e, testBit_xor_bit15 s 0 (by omega), testBit_xor_bit15 s 14 (by omega)]
  | succ t =>
    unfold lfsrOutput
    rw [lfsrState_succ_xor_bit15, lfsrOut_eq, lfsrOut_eq]

theorem lfsrState_zero_xor_bit15 (s : Nat) :
    lfsrState (s ^^^ 0x8000) 0 ≠ lfsrState s 0 := by
  intro h
  have h1 : (power_on (lfsrCircuit (s ^^^ 0x8000))).regs = (power_on (lfsrCircuit s)).regs :=
    congrArg State.regs h
  rw [lfsr_regs_power_on, lfsr_regs_power_on] at h1
  have h2 := congrArg (fun l => l.getD 15 false) h1
  simp only [Nat.testBit_xor] at h2
  have h3 : Nat.testBit 0x8000 15 = true := by decide
  simp [h3] at h2

theorem list_eq_map_getD (l : List Bool) :
    l = (List.range l.length).map (fun i => l.getD i false) := by
  apply List.ext_getElem
  · simp
  · intro i h1 h2
    simp [h1]

theorem range16 :
    List.range 16 = [0, 1, 2, 3, 4, 5, 6, 7, 8, 9, 10, 11, 12, 13, 14, 15] := by
  decide

theorem list_of_length_16 (l : List Bool) (h : l.length = 16) :
    ∃ b0 b1 b2 b3 b4 b5 b6 b7 b8 b9 b10 b11 b12 b13 b14 b15,
      l = [b0, b1, b2, b3, b4, b5, b6, b7, b8, b9, b10, b11, b12, b13, b14, b15] := by
  have hl := list_eq_map_getD l
  rw [h, range16] at hl
  exact ⟨_, _, _, _, _, _, _, _, _, _, _, _, _, _, _, _, hl⟩

/-- The shift register keeps its value over one advance exactly when all of its
16 bits are ones. -/
theorem lfsr_fixed_iff (seed : Nat) (st : State) :
    (advance (lfsrCircuit seed) st).regs = st.regs ↔ st.regs = List.replicate 16 true := by
  constructor
  · intro h
    have hlen : st.regs.length = 16 := by
      rw [← h, lfsr_regs_advance]
      simp
    obtain ⟨b0, b1, b2, b3, b4, b5, b6, b7, b8, b9, b10, b11, b12, b13, b14, b15, hl⟩ :=
      list_of_length_16 st.regs hlen
    rw [lfsr_regs_advance, range15, hl] at h
    simp only [List.map_cons, List.map_nil, List.getD_cons_zero, List.getD_cons_succ,
      List.cons.injEq, and_true] at h
    obtain ⟨h0, h1, h2, h3, h4, h5, h6, h7, h8, h9, h10, h11, h12, h13, h14, h15⟩ := h
    subst h1 h2 h3 h4 h5 h6 h7 h8 h9 h10 h11 h12 h13 h14 h15
    rw [hl]
    cases b0
    · simp at h0
    · rfl
  · intro h
    rw [lfsr_regs_advance, h]
    decide

theorem lfsrState_ffff (t : Nat) : lfsrState 0xFFFF t = lfsrState 0xFFFF 0 := by
  induction t with
  | zero => rfl
  | succ t ih =>
    have h1 : lfsrState 0xFFFF (t + 1) = advance (lfsrCircuit 0xFFFF) (lfsrState 0xFFFF t) := rfl
    rw [h1, ih]
    decide

/-! ## The period of the generator -/

theorem low15Step_iterate (n s : Nat) :
    low15Step^[n] (s % 32768) = lfsrIter n s % 32768 := by
  induction n with
  | zero => rfl
  | succ n ih =>
    rw [Function.iterate_succ_apply', ih, low15Step, lfsrStep_low, lfsrIter_succ_right]

theorem low15Step_lt (s : Nat) : low15Step s < 32768 :=
  Nat.mod_lt _ (by norm_num)

theorem low15Step_iterate_lt (n s : Nat) (h : s < 32768) : low15Step^[n] s < 32768 := by
  cases n with
  | zero => exact h
  | succ n =>
    rw [Function.iterate_succ_apply']
    exact low15Step_lt _

theorem low15_orbit_returns : lfsrIter 32767 0 % 32768 = 0 := by
  decide!

theorem low15_orbit_4681 : lfsrIter 4681 0 % 32768 ≠ 0 := by
  decide!

theorem low15_orbit_1057 : lfsrIter 1057 0 % 32768 ≠ 0 := by
  decide!

theorem low15_orbit_217 : lfsrIter 217 0 % 32768 ≠ 0 := by
  decide!

theorem low15_periodic_zero : Function.IsPeriodicPt low15Step 32767 0 := by
  have h := low15Step_iterate 32767 0
  rw [low15_orbit_returns] at h
  exact h

theorem low15_not_periodic_zero (n : Nat) (h : lfsrIter n 0 % 32768 ≠ 0) :
    ¬ Function.IsPeriodicPt low15Step n 0 := by
  intro hp
  apply h
  rw [← low15Step_iterate]
  exact hp

theorem prime_dvd_32767 (q : Nat) (hq : q.Prime) (hd : q ∣ 32767) :
    q = 7 ∨ q = 31 ∨ q = 151 := by
  have e : 32767 = 7 * (31 * 151) := by norm_num
  rw [e] at hd
  rcases (Nat.Prime.dvd_mul hq).mp hd with h | h
  · left
    exact (Nat.prime_dvd_prime_iff_eq hq (by norm_num)).mp h
  · rcases (Nat.Prime.dvd_mul hq).mp h with h | h
    · right; left
      exact (Nat.prime_dvd_prime_iff_eq hq (by norm_num)).mp h
    · right; right
      exact (Nat.prime_dvd_prime_iff_eq hq (by norm_num)).mp h

/-- The low 15 bits, started at zero, come back to zero after 32767 ticks and
not before. -/
theorem low15_minimalPeriod_zero : Function.minimalPeriod low15Step 0 = 32767 := by
  have hdvd := low15_periodic_zero.minimalPeriod_dvd
  obtain ⟨a, ha⟩ := hdvd
  by_cases h1 : a = 1
  · rw [h1, Nat.mul_one] at ha
    exact ha.symm
  · exfalso
    have hq := Nat.minFac_prime h1
    have hqa : a.minFac ∣ a := Nat.minFac_dvd a
    generalize a.minFac = q at hq hqa
    obtain ⟨b, hb⟩ := hqa
    have e1 : 32767 = q * (Function.minimalPeriod low15Step 0 * b) := by
      rw [ha, hb]
      exact Nat.mul_left_comm _ _ _
    have hq32 : q ∣ 32767 := ⟨_, e1⟩
    have hper : Function.IsPeriodicPt low15Step (32767 / q) 0 := by
      have e : 32767 / q = Function.minimalPeriod low15Step 0 * b := by
        conv_lhs => rw [e1]
        exact Nat.mul_div_cancel_left _ hq.pos
      rw [e]
      exact (Function.isPeriodicPt_minimalPeriod low15Step 0).mul_const b
    rcases prime_dvd_32767 _ hq hq32 with h | h | h
    · rw [h] at hper
      exact low15_not_periodic_zero 4681 low15_orbit_4681 hper
    · rw [h] at hper
      exact low15_not_periodic_zero 1057 low15_orbit_1057 hper
    · rw [h] at hper
      exact low15_not_periodic_zero 217 low15_orbit_217 hper

theorem low15Step_all_ones : low15Step 32767 = 32767 := by
  decide

theorem low15_orbit_ne_all_ones (k : Nat) (hk : k < 32767) : low15Step^[k] 0 ≠ 32767 := by
  intro h
  have h1 : low15Step^[32767 - k + k] 0 = 32767 := by
    rw [Function.iterate_add_apply, h]
    exact Function.iterate_fixed low15Step_all_ones _
  have e : 32767 - k + k = 32767 := by omega
  rw [e] at h1
  have h2 : low15Step^[32767] 0 = 0 := low15_periodic_zero
  rw [h2] at h1
  exact absurd h1 (by norm_num)

/-- Every value of the low 15 bits other than all ones is reached from zero in
fewer than 32767 ticks. -/
theorem low15_orbit_covers (s : Nat) (h1 : s < 32768) (h2 : s ≠ 32767) :
    ∃ k, k < 32767 ∧ low15Step^[k] 0 = s := by
  have hsub : (Finset.range 32767).image (fun k => low15Step^[k] 0) ⊆
      (Finset.range 32768).erase 32767 := by
    intro x hx
    obtain ⟨k, hk, rfl⟩ := Finset.mem_image.mp hx
    have hk1 : k < 32767 := Finset.mem_range.mp hk
    apply Finset.mem_erase.mpr
    exact ⟨low15_orbit_ne_all_ones k hk1,
      Finset.mem_range.mpr (low15Step_iterate_lt k 0 (by norm_num))⟩
  have hinj : Set.InjOn (fun k => low15Step^[k] 0) (Finset.range 32767 : Finset Nat) := by
    intro a ha b hb hab
    have ha1 : a < Function.minimalPeriod low15Step 0 := by
      rw [low15_minimalPeriod_zero]
      exact Finset.mem_range.mp ha
    have hb1 : b < Function.minimalPeriod low15Step 0 := by
      rw [low15_minimalPeriod_zero]
      exact Finset.mem_range.mp hb
    exact (Function.iterate_eq_iterate_iff_of_lt_minimalPeriod ha1 hb1).mp hab
  have hcard : ((Finset.range 32768).erase 32767).card ≤
      ((Finset.range 32767).image (fun k => low15Step^[k] 0)).card := by
    rw [Finset.card_image_of_injOn hinj, Finset.card_range,
      Finset.card_erase_of_mem (Finset.mem_range.mpr (by norm_num)), Finset.card_range]
  have heq := Finset.eq_of_subset_of_card_le hsub hcard
  have hs : s ∈ (Finset.range 32768).erase 32767 :=
    Finset.mem_erase.mpr ⟨h2, Finset.mem_range.mpr h1⟩
  rw [← heq] at hs
  obtain ⟨k, hk, hks⟩ := Finset.mem_image.mp hs
  exact ⟨k, Finset.mem_range.mp hk, hks⟩

/-- Every value of the low 15 bits other than all ones comes back after 32767
ticks and not before. -/
theorem low15_minimalPeriod (s : Nat) (h1 : s < 32768) (h2 : s ≠ 32767) :
    Function.minimalPeriod low15Step s = 32767 := by
  obtain ⟨k, _, rfl⟩ := low15_orbit_covers s h1 h2
  have h0 : 0 ∈ Function.periodicPts low15Step :=
    Function.mk_mem_periodicPts (by norm_num) low15_periodic_zero
  rw [Function.minimalPeriod_apply_iterate h0, low15_minimalPeriod_zero]

theorem lfsrIter_returns (s : Nat) (h : s % 32768 ≠ 32767) :
    lfsrIter 32767 s % 32768 = s % 32768 := by
  have hm := low15_minimalPeriod (s % 32768) (Nat.mod_lt _ (by norm_num)) h
  have hp := Function.isPeriodicPt_minimalPeriod low15Step (s % 32768)
  rw [hm] at hp
  rw [← low15Step_iterate]
  exact hp

theorem lfsrIter_no_early_return (s p : Nat) (h : s % 32768 ≠ 32767) (hp0 : 0 < p)
    (hp : lfsrIter p s % 32768 = s % 32768) : 32767 ≤ p := by
  have hm := low15_minimalPeriod (s % 32768) (Nat.mod_lt _ (by norm_num)) h
  rw [← low15Step_iterate] at hp
  have hper : Function.IsPeriodicPt low15Step p (s % 32768) := hp
  have := hper.minimalPeriod_le hp0
  omega

/-- The low `j + 1` bits after a tick: the low `j` bits moved up by one place, over
the complement of the tap XOR. -/
theorem lfsrStep_mod (s j : Nat) (hj : j < 15) :
    lfsrStep s % 2 ^ (j + 1) = 2 * (s % 2 ^ j) + (1 - lfsrTap s) := by
  have hc := lfsrTap_lt s
  unfold lfsrStep
  generalize lfsrTap s = c at hc
  interval_cases j <;> norm_num <;> omega

/-- An output sequence that repeats with shift `p` forces the low 15 bits of the
shift register to repeat with shift `p` from cycle 15 on: each output bit is
the complement of the bit shifted in. -/
theorem low_bits_repeat (s0 p : Nat)
    (h : ∀ t, lfsrTap (lfsrIter (t + p) s0) = lfsrTap (lfsrIter t s0)) (j : Nat) (hj : j ≤ 15)
    (t : Nat) :
    lfsrIter (t + j + p) s0 % 2 ^ j = lfsrIter (t + j) s0 % 2 ^ j := by
  induction j generalizing t with
  | zero => simp [Nat.mod_one]
  | succ j ih =>
    have e1 : t + (j + 1) + p = (t + j + p) + 1 := by omega
    have e2 : t + (j + 1) = (t + j) + 1 := by omega
    rw [e1, e2, lfsrIter_succ_right, lfsrIter_succ_right, lfsrStep_mod _ j (by omega),
      lfsrStep_mod _ j (by omega), ih (by omega) t, h (t + j)]

theorem lfsrTap_of_output (seed : Nat) (p : Nat)
    (h : ∀ t, lfsrOutput seed (t + p) = lfsrOutput seed t) (t : Nat) :
    lfsrTap (lfsrIter (t + p) (seed % 2 ^ 16)) = lfsrTap (lfsrIter t (seed % 2 ^ 16)) := by
  rw [← lfsrOutput_eq, ← lfsrOutput_eq, h t]

/-- No positive shift below 32767 is a period of the output sequence, unless the
low 15 bits of the seed are all ones. -/
theorem lfsrOutput_no_shorter_period (seed p : Nat) (hs : seed % 32768 ≠ 32767) (hp0 : 0 < p)
    (h : ∀ t, lfsrOutput seed (t + p) = lfsrOutput seed t) : 32767 ≤ p := by
  have hs0 : seed % 2 ^ 16 % 32768 ≠ 32767 := by
    have e : seed % 2 ^ 16 % 32768 = seed % 32768 := by omega
    rw [e]; exact hs
  have hrep := low_bits_repeat (seed % 2 ^ 16) p (lfsrTap_of_output seed p h) 15 (by omega) 32752
  have e15 : (2 : Nat) ^ 15 = 32768 := by norm_num
  have ea : 32752 + 15 + p = 32767 + p := by omega
  have eb : 32752 + 15 = 32767 := by omega
  rw [e15, ea, eb, lfsrIter_returns _ hs0, lfsrIter_add, ← low15Step_iterate,
    lfsrIter_returns _ hs0, low15Step_iterate] at hrep
  exact lfsrIter_no_early_return _ p hs0 hp0 hrep

/-- The output sequence repeats after 32767 cycles, unless the low 15 bits of the
seed are all ones. -/
theorem lfsrOutput_period_32767 (seed : Nat) (hs : seed % 32768 ≠ 32767) (t : Nat) :
    lfsrOutput seed (t + 32767) = lfsrOutput seed t := by
  have hs0 : seed % 2 ^ 16 % 32768 ≠ 32767 := by
    have e : seed % 2 ^ 16 % 32768 = seed % 32768 := by omega
    rw [e]; exact hs
  exact lfsrOutput_periodic seed 32767 (lfsrIter_returns _ hs0) t

theorem lfsr_bit15_delay (seed t : Nat) :
    (lfsrState seed (t + 1)).regs.getD 15 false = (lfsrState seed t).regs.getD 14 false := by
  have hs : lfsrState seed (t + 1) = advance (lfsrCircuit seed) (lfsrState seed t) := rfl
  rw [hs, lfsr_regs_advance, range15]
  simp

theorem lfsrStep_fixed_iff (s : Nat) (hs : s < 65536) : lfsrStep s = s ↔ s = 65535 := by
  unfold lfsrStep lfsrTap
  rcases Nat.mod_two_eq_zero_or_one s with h0 | h0 <;>
    rcases Nat.mod_two_eq_zero_or_one (s / 16384) with h1 | h1 <;>
    simp [h0, h1] <;> omega

/-! ## The claims -/

/-- C1: in the reference scenario (seeds 0x5eed and 0x1234, Counters that start at
zero and count the cycles on which their input was asserted, a Counter width
that holds 10000), each reference counter equals the egressed Counter value
after each of the 10000 advances, and `test_Counter` returns true. -/
theorem test_Counter_reference_scenario (CTRSIZE : Nat) (h : 10000 < 2 ^ CTRSIZE) :
    (∀ k : Fin 10000,
      benchRefX CTRSIZE 0x5eed 0x1234 (k.val + 1) =
        (benchHost CTRSIZE 0x5eed 0x1234 (k.val + 1)).cxval ∧
      benchRefY CTRSIZE 0x5eed 0x1234 (k.val + 1) =
        (benchHost CTRSIZE 0x5eed 0x1234 (k.val + 1)).cyval) ∧
    test_Counter CTRSIZE = true := by
  have hx : lfsrOutput 0x5eed 0 = false := by decide
  have hy : lfsrOutput 0x1234 0 = false := by decide
  constructor
  · intro k
    have hk : k.val + 1 < 2 ^ CTRSIZE := by have := k.isLt; omega
    obtain ⟨h1, h2⟩ := bench_host_counts CTRSIZE 0x5eed 0x1234 k.val hk
    rw [h1, h2, hx, hy]
    simp
  · exact (bench_run_verdict CTRSIZE 0x5eed 0x1234 10000 h).mpr (Or.inr ⟨hx, hy⟩)

/-- Witness of C1 for a Counter of 32 bits. -/
theorem test_Counter_reference_scenario_witness :
    10000 < 2 ^ 32 ∧ test_Counter 32 = true :=
  ⟨by norm_num, (test_Counter_reference_scenario 32 (by norm_num)).2⟩

/-- C2: for seed 0x5eed the output sequence of `Lfsr` repeats after 32767 advances,
and does not repeat after 65535 advances: its least period is not 65535. -/
theorem Lfsr_5eed_period_is_not_65535 :
    (∀ t, lfsrOutput 0x5eed (t + 32767) = lfsrOutput 0x5eed t) ∧
    ¬ (∀ t, lfsrOutput 0x5eed (t + 65535) = lfsrOutput 0x5eed t) := by
  have hp := lfsrOutput_periodic 0x5eed 32767 lfsr_5eed_returns
  refine ⟨hp, ?_⟩
  intro h
  have h1 := h 0
  have e : 0 + 65535 = (1 + 32767) + 32767 := by norm_num
  rw [e, hp, hp] at h1
  revert h1
  decide

/-- C3: one `advance()` of the shift register, from any state: bit `i` takes the
pre-tick value of bit `i - 1` for `i` in 1..15, bit 0 takes the complement of
the pre-tick bit 0 XOR bit 14, and as integers
`next = (2 * s) mod 2^16 + (1 - (s[0] XOR s[14]))`. -/
theorem Lfsr_advance_simultaneous (seed : Nat) (st : State) :
    (∀ i : Fin 15,
      (advance (lfsrCircuit seed) st).regs.getD (i.val + 1) false = st.regs.getD i.val false) ∧
    (advance (lfsrCircuit seed) st).regs.getD 0 false =
      (!(Bool.xor (st.regs.getD 0 false) (st.regs.getD 14 false))) ∧
    (advance (lfsrCircuit seed) st).regs.length = 16 ∧
    toUInt (advance (lfsrCircuit seed) st).regs =
      (2 * toUInt st.regs) % 2 ^ 16 +
        (1 - (Bool.xor (st.regs.getD 0 false) (st.regs.getD 14 false)).toNat) := by
  refine ⟨?_, ?_, ?_, toUInt_lfsr_advance seed st⟩
  · intro i
    rw [lfsr_regs_advance, List.getD_cons_succ]
    have hi := i.isLt
    simp [hi]
  · rw [lfsr_regs_advance, List.getD_cons_zero]
  · rw [lfsr_regs_advance]
    simp

/-- Counterexample to C4: for seed 0x5eed the output at cycle 0 differs from the
value bit 0 holds at cycle 1. -/
theorem Lfsr_output_is_not_new_bit0 :
    ¬ (lfsrOutput 0x5eed 0 = (lfsrState 0x5eed (0 + 1)).regs.getD 0 false) := by
  decide

/-- C4 (amended): for every seed and every cycle `t`, the output of `Lfsr` at cycle
`t` is the complement of the value bit 0 of the shift register holds at cycle
`t + 1`. -/
theorem Lfsr_output_is_complement_of_new_bit0 (seed t : Nat) :
    lfsrOutput seed t = !((lfsrState seed (t + 1)).regs.getD 0 false) := by
  have hs : lfsrState seed (t + 1) = advance (lfsrCircuit seed) (lfsrState seed t) := rfl
  rw [hs, lfsr_regs_advance, List.getD_cons_zero, Bool.not_not]
  simp [lfsrOutput, lfsrOut_eq, eval, evalW, Circuit.empty]

/-- Counterexample to C5: from seed 0 the state is not a fixed point and the
output is not 0 on every cycle. -/
theorem Lfsr_zero_seed_not_fixed :
    ¬ ((∀ n, toUInt (lfsrState 0 n).regs = 0) ∧ (∀ t, lfsrOutput 0 t = false)) := by
  intro h
  have h1 := h.1 1
  revert h1
  decide

/-- C5 (amended): from seed 0 the shift register holds 0x0000 at cycle 0 only: it
holds 0x0001 after the first advance and is never 0x0000 after an advance; the
output is 0 at cycle 0 and 1 at cycle 1. -/
theorem Lfsr_zero_seed_leaves_zero :
    toUInt (lfsrState 0 0).regs = 0 ∧ toUInt (lfsrState 0 1).regs = 1 ∧
    (∀ n, toUInt (lfsrState 0 (n + 1)).regs ≠ 0) ∧
    lfsrOutput 0 0 = false ∧ lfsrOutput 0 1 = true := by
  refine ⟨by decide, by decide, ?_, by decide, by decide⟩
  intro n
  rw [toUInt_lfsrState, lfsrIter_succ_right]
  exact lfsr_step_ne_zero _

/-- C6: over any kernel and any Counter behaviour, `test_Counter` returns true exactly
when both reference counters equal the egressed Counter values after each of
the 10000 advances; otherwise it returns false right after the advance of the
first cycle at which a lane differs, with no further advance; and `main` returns
0 when `test_Counter` returns true and 1 otherwise. -/
theorem test_Counter_verdict {σ : Type} (adv : σ → σ) (egress : σ → Egressed)
    (rst : σ → σ) (s0 : σ) (CTRSIZE : Nat) :
    ((test_Counter_on adv egress s0).1 = true ↔
      ∀ k : Fin 10000, lanesAgree adv egress s0 (k.val + 1)) ∧
    (((test_Counter_on adv egress s0).1 = true ∧
        (test_Counter_on adv egress s0).2.advances = 10000) ∨
      ((test_Counter_on adv egress s0).1 = false ∧
        1 ≤ (test_Counter_on adv egress s0).2.advances ∧
        (test_Counter_on adv egress s0).2.advances ≤ 10000 ∧
        (test_Counter_on adv egress s0).2.sim =
          after adv s0 (test_Counter_on adv egress s0).2.advances ∧
        ¬ lanesAgree adv egress s0 (test_Counter_on adv egress s0).2.advances ∧
        ∀ k : Fin ((test_Counter_on adv egress s0).2.advances - 1),
          lanesAgree adv egress s0 (k.val + 1))) ∧
    (main_on adv egress rst s0).1 = (if (test_Counter_on adv egress s0).1 then 0 else 1) ∧
    main CTRSIZE = (if test_Counter CTRSIZE then 0 else 1) := by
  have hs := loop_spec adv egress s0 10000 0
  have hr : test_Counter_on adv egress s0 =
      test_Counter_loop adv egress 10000 (localsAt adv egress s0 0) := rfl
  have hmainc : main CTRSIZE = (if test_Counter CTRSIZE then 0 else 1) :=
    main_on_exit _ _ _ _
  refine ⟨?_, ?_, main_on_exit adv egress s0 rst, hmainc⟩
  · rw [hr]
    simp only at hs
    rcases hs with ⟨h1, _, h3⟩ | ⟨h1, m, hm1, hm2, _, hm4, _⟩
    · rw [h1]
      simp only [true_iff]
      intro k
      have := k.isLt
      exact h3 (k.val + 1) (by omega) (by omega)
    · rw [h1]
      simp only [Bool.false_eq_true, false_iff, not_forall]
      exact ⟨⟨m - 1, by omega⟩, by
        have e : m - 1 + 1 = m := by omega
        simp only [e]
        exact hm4⟩
  · rw [hr]
    simp only at hs
    rcases hs with ⟨h1, h2, _⟩ | ⟨h1, m, hm1, hm2, hm3, hm4, hm5⟩
    · left
      refine ⟨h1, ?_⟩
      rw [h2]
      rfl
    · right
      rw [hm3]
      refine ⟨h1, hm1, by simpa using hm2, rfl, hm4, ?_⟩
      intro k
      have hk : k.val < m - 1 := k.isLt
      exact hm5 (k.val + 1) (by omega) (by omega)

/-- C8: before the first advance, bit `i` of the shift register of `Lfsr(seed)` is
bit `i` of the seed for `i` in 0..15; the state as an integer is
`seed mod 2^16`, and the seed bits from position 16 up change nothing in the
circuit. -/
theorem Lfsr_initial_state_is_seed (seed : Nat) :
    (∀ i : Fin 16, (lfsrState seed 0).regs.getD i.val false = seed.testBit i.val) ∧
    (lfsrState seed 0).regs.length = 16 ∧
    toUInt (lfsrState seed 0).regs = seed % 2 ^ 16 ∧
    lfsrCircuit (seed % 2 ^ 16) = lfsrCircuit seed ∧
    lfsrOut (seed % 2 ^ 16) = lfsrOut seed := by
  have hs : (lfsrState seed 0).regs = (List.range 16).map (fun i => seed.testBit i) :=
    lfsr_regs_power_on seed
  refine ⟨?_, ?_, ?_, lfsrCircuit_mod seed, ?_⟩
  · intro i
    have hi := i.isLt
    rw [hs]
    simp [hi]
  · rw [hs]; simp
  · rw [hs, toUInt_testBit_range]
  · rw [lfsrOut_eq, lfsrOut_eq]

/-- C9: for every pair of seeds and every number `n` of advances, `reset()` after
`n` advances gives the state of the freshly built circuit, in which every LFSR
register holds its seed bit and both Counter outputs are zero, and a second
`reset()` changes nothing. -/
theorem reset_restores_and_is_idempotent (CTRSIZE seedx seedy n : Nat) :
    reset (test_Counter_circuit CTRSIZE seedx seedy) (benchState CTRSIZE seedx seedy n) =
      power_on (test_Counter_circuit CTRSIZE seedx seedy) ∧
    (reset (test_Counter_circuit CTRSIZE seedx seedy) (benchState CTRSIZE seedx seedy n)).regs =
      (List.range 16).map (fun i => seedx.testBit i) ++
        (List.range 16).map (fun i => seedy.testBit i) ∧
    (reset (test_Counter_circuit CTRSIZE seedx seedy) (benchState CTRSIZE seedx seedy n)).counts =
      [0, 0] ∧
    (benchEgress (test_Counter_circuit CTRSIZE seedx seedy)
      (reset (test_Counter_circuit CTRSIZE seedx seedy)
        (benchState CTRSIZE seedx seedy n))).cxval = 0 ∧
    (benchEgress (test_Counter_circuit CTRSIZE seedx seedy)
      (reset (test_Counter_circuit CTRSIZE seedx seedy)
        (benchState CTRSIZE seedx seedy n))).cyval = 0 ∧
    reset (test_Counter_circuit CTRSIZE seedx seedy)
        (reset (test_Counter_circuit CTRSIZE seedx seedy) (benchState CTRSIZE seedx seedy n)) =
      reset (test_Counter_circuit CTRSIZE seedx seedy) (benchState CTRSIZE seedx seedy n) := by
  have hr : reset (test_Counter_circuit CTRSIZE seedx seedy) (benchState CTRSIZE seedx seedy n) =
      power_on (test_Counter_circuit CTRSIZE seedx seedy) :=
    reset_eq_power_on _ _ (counts_length_after _ n)
  have h0 : benchState CTRSIZE seedx seedy 0 = power_on (test_Counter_circuit CTRSIZE seedx seedy) :=
    rfl
  have he := benchHost_eq CTRSIZE seedx seedy 0
  unfold benchHost at he
  rw [h0] at he
  have hp := power_on_bench CTRSIZE seedx seedy
  rw [hr]
  refine ⟨rfl, ?_, ?_, ?_, ?_, ?_⟩
  · rw [hp]
  · rw [hp]
  · rw [he, hp]; simp
  · rw [he, hp]; simp
  · apply reset_eq_power_on
    rw [← h0]
    exact counts_length_after _ 0

/-- C10: for the circuit wired by `test_Counter`, for any seeds and Counter width,
`optimize()` compacts the graph (each LFSR output XOR, written four times in
the wiring, becomes one shared node, read by the negation, the Counter input,
the tap and the egress binding), and the kernel state, the values at every tap
and every egress point, and the host variables, after any number `t` of
advances, are the same on the compacted graph and on the graph as wired. -/
theorem optimize_is_transparent (CTRSIZE seedx seedy t : Nat) :
    (test_Counter_wiring CTRSIZE seedx seedy).wires = [] ∧
    (optimize (test_Counter_wiring CTRSIZE seedx seedy)).wires =
      [node.xor (node.reg 0) (node.reg 14), node.inv (node.wire 0),
       node.xor (node.reg 16) (node.reg 30), node.inv (node.wire 2)] ∧
    (optimize (test_Counter_wiring CTRSIZE seedx seedy)).counters =
      [{ input := node.wire 0, width := CTRSIZE }, { input := node.wire 2, width := CTRSIZE }] ∧
    (optimize (test_Counter_wiring CTRSIZE seedx seedy)).egress =
      [[node.wire 0], [node.wire 2],
       (List.range CTRSIZE).map (fun bit => node.ctr 0 bit),
       (List.range CTRSIZE).map (fun bit => node.ctr 1 bit)] ∧
    after (advance (optimize (test_Counter_wiring CTRSIZE seedx seedy)))
        (power_on (optimize (test_Counter_wiring CTRSIZE seedx seedy))) t =
      after (advance (test_Counter_wiring CTRSIZE seedx seedy))
        (power_on (test_Counter_wiring CTRSIZE seedx seedy)) t ∧
    tapVals (optimize (test_Counter_wiring CTRSIZE seedx seedy))
        (after (advance (optimize (test_Counter_wiring CTRSIZE seedx seedy)))
          (power_on (optimize (test_Counter_wiring CTRSIZE seedx seedy))) t) =
      tapVals (test_Counter_wiring CTRSIZE seedx seedy)
        (after (advance (test_Counter_wiring CTRSIZE seedx seedy))
          (power_on (test_Counter_wiring CTRSIZE seedx seedy)) t) ∧
    egressVals (optimize (test_Counter_wiring CTRSIZE seedx seedy))
        (after (advance (optimize (test_Counter_wiring CTRSIZE seedx seedy)))
          (power_on (optimize (test_Counter_wiring CTRSIZE seedx seedy))) t) =
      egressVals (test_Counter_wiring CTRSIZE seedx seedy)
        (after (advance (test_Counter_wiring CTRSIZE seedx seedy))
          (power_on (test_Counter_wiring CTRSIZE seedx seedy)) t) ∧
    benchEgress (optimize (test_Counter_wiring CTRSIZE seedx seedy))
        (after (advance (optimize (test_Counter_wiring CTRSIZE seedx seedy)))
          (power_on (optimize (test_Counter_wiring CTRSIZE seedx seedy))) t) =
      benchEgress (test_Counter_wiring CTRSIZE seedx seedy)
        (after (advance (test_Counter_wiring CTRSIZE seedx seedy))
          (power_on (test_Counter_wiring CTRSIZE seedx seedy)) t) := by
  have hraw := wiring_raw CTRSIZE seedx seedy
  obtain ⟨hw, hc, he⟩ := optimize_wiring CTRSIZE seedx seedy
  refine ⟨wiring_wires CTRSIZE seedx seedy, hw, hc, he, after_optimize _ hraw t, ?_, ?_, ?_⟩
  · rw [after_optimize _ hraw]
    exact tapVals_optimize _ hraw _
  · rw [after_optimize _ hraw]
    exact egressVals_optimize _ hraw _
  · rw [after_optimize _ hraw]
    unfold benchEgress
    rw [hostVars_optimize _ hraw]

/-- C11: for every seed whose low 15 bits are not all ones, the output sequence of
`Lfsr(seed)` repeats after 32767 cycles from cycle 0 on, and after no smaller
positive number of cycles; bit 15 of the shift register is bit 14 delayed by
one cycle and feeds nothing. -/
theorem Lfsr_least_period_is_32767 (seed : Nat) (hs : seed % 32768 ≠ 32767) :
    (∀ t, lfsrOutput seed (t + 32767) = lfsrOutput seed t) ∧
    (∀ p : Fin 32766, ¬ (∀ t, lfsrOutput seed (t + (p.val + 1)) = lfsrOutput seed t)) ∧
    (∀ t, (lfsrState seed (t + 1)).regs.getD 15 false =
      (lfsrState seed t).regs.getD 14 false) ∧
    lfsrOut seed = node.xor (node.reg 0) (node.reg 14) := by
  refine ⟨lfsrOutput_period_32767 seed hs, ?_, lfsr_bit15_delay seed, lfsrOut_eq seed⟩
  intro p h
  have hp := p.isLt
  have := lfsrOutput_no_shorter_period seed (p.val + 1) hs (by omega) h
  omega

/-- Witness of C11 for seed 0x5eed. -/
theorem Lfsr_least_period_is_32767_witness :
    0x5eed % 32768 ≠ 32767 ∧
    (∀ t, lfsrOutput 0x5eed (t + 32767) = lfsrOutput 0x5eed t) ∧
    (∀ p : Fin 32766, ¬ (∀ t, lfsrOutput 0x5eed (t + (p.val + 1)) = lfsrOutput 0x5eed t)) :=
  ⟨by norm_num, (Lfsr_least_period_is_32767 0x5eed (by norm_num)).1,
    (Lfsr_least_period_is_32767 0x5eed (by norm_num)).2.1⟩

/-- C12: for every seed `s`, `Lfsr(s)` and `Lfsr(s XOR 0x8000)` give the same output
bit at every cycle and hold the same shift-register state after the first
advance and after every later one; the two initial states differ and have
the same successor, so the transition is not injective on 16-bit states. -/
theorem Lfsr_seed_bit15_is_ignored (s : Nat) :
    (∀ t, lfsrOutput (s ^^^ 0x8000) t = lfsrOutput s t) ∧
    (∀ t, lfsrState (s ^^^ 0x8000) (t + 1) = lfsrState s (t + 1)) ∧
    (lfsrState (s ^^^ 0x8000) 0).regs.length = 16 ∧
    (lfsrState s 0).regs.length = 16 ∧
    lfsrState (s ^^^ 0x8000) 0 ≠ lfsrState s 0 ∧
    advance (lfsrCircuit s) (lfsrState (s ^^^ 0x8000) 0) =
      advance (lfsrCircuit s) (lfsrState s 0) := by
  have hlen : ∀ seed, (lfsrState seed 0).regs.length = 16 := by
    intro seed
    have h : (lfsrState seed 0).regs = (List.range 16).map (fun i => seed.testBit i) :=
      lfsr_regs_power_on seed
    rw [h]
    simp
  refine ⟨lfsrOutput_xor_bit15 s, lfsrState_succ_xor_bit15 s, hlen _, hlen _,
    lfsrState_zero_xor_bit15 s, ?_⟩
  have h := lfsrState_one_xor_bit15 s
  have h1 : lfsrState (s ^^^ 0x8000) 1 =
      advance (lfsrCircuit (s ^^^ 0x8000)) (lfsrState (s ^^^ 0x8000) 0) := rfl
  have h2 : lfsrState s 1 = advance (lfsrCircuit s) (lfsrState s 0) := rfl
  rw [h1, h2, advance_lfsrCircuit (s ^^^ 0x8000) s] at h
  exact h

/-- C13: one `advance()` leaves the shift register unchanged exactly when its state is
all ones, 0xFFFF; from seed 0xFFFF the state stays 0xFFFF and the output bit
is 0 on every cycle. -/
theorem Lfsr_all_ones_is_the_only_fixed_point (seed : Nat) (st : State) :
    ((advance (lfsrCircuit seed) st).regs = st.regs ↔ st.regs = List.replicate 16 true) ∧
    toUInt (List.replicate 16 true) = 0xFFFF ∧
    (∀ s : Fin 65536, lfsrStep s.val = s.val ↔ s.val = 0xFFFF) ∧
    (∀ t, toUInt (lfsrState 0xFFFF t).regs = 0xFFFF) ∧
    (∀ t, lfsrOutput 0xFFFF t = false) := by
  refine ⟨lfsr_fixed_iff seed st, by decide, fun s => lfsrStep_fixed_iff s.val s.isLt, ?_, ?_⟩
  · intro t
    rw [lfsrState_ffff]
    decide
  · intro t
    unfold lfsrOutput
    rw [lfsrState_ffff]
    decide

end chdl
